import Mathlib

/-!
# FGBY/main.cpp: the warehouse buffer and its greedy truck loading

A shallow embedding of `class Warehouse` (`storeProduct`, `loadTruck`,
`printAverageLoadStats`) and of the data it works on.

Modelling conventions.

* C++ `int` is modelled by `Int`. Signed overflow is undefined behaviour in C++, so
  the model describes exactly the executions in which no `int` operation overflows.
* `std::unordered_map<std::string, int>` is modelled by an association list
  `List (String × Int)` whose order is the iteration order of the container.  The
  container has unique keys; theorems about arbitrary buffers carry this as the
  hypothesis `Map.keys m` has no duplicates.  `m[k]` default-inserts `0`, as in C++.
* `max_capacity_ * 0.95` is evaluated by C++ in IEEE-754 binary64.  `times095` models
  that product exactly (round to nearest, ties to even), scaled by `2^53`.
  `atLeast095_iff` and `atMost095_iff` show that for a 32 bit `max_capacity_` the two
  comparisons of the code agree with the comparisons against `0.95 × max_capacity_`
  in exact arithmetic.
* The division of line 134 is binary64 as well: `average` yields the exact quotient
  rounded to 53 significant bits, as a `Double64` (`mant / 2^scale`).
* `condition_.wait(lock, pred)` returns at once when `pred` holds and otherwise
  suspends the caller.  An operation that has to suspend in the given state returns
  `none`; `some` is the effect of the code that runs with the mutex held.
-/

namespace FGBY

/-! ## Data -/

/-- The `struct Product` of main.cpp:37-42. -/
structure Product where
  name : String
  quantity : Int
  weight : Rat
  packagingType : String

/-- A `std::unordered_map<std::string, int>`, listed in iteration order. -/
abbrev Map := List (String × Int)

namespace Map

/-- Keys of the container in iteration order. -/
def keys (m : Map) : List String := m.map Prod.fst

/-- Read access: the value stored under `k`, `0` when `k` is absent
(what `m[k]` yields in C++ after default insertion). -/
def get : Map → String → Int
  | [], _ => 0
  | (k', v) :: m, k => if k' = k then v else get m k

/-- The C++ access `m[k] = f (m[k])`: `operator[]` default-inserts `0` for a missing key,
then the stored value is replaced by `f` of it.  A new key is appended. -/
def upd : Map → String → (Int → Int) → Map
  | [], k, f => [(k, f 0)]
  | (k', v) :: m, k, f => if k' = k then (k', f v) :: m else (k', v) :: upd m k f

/-- Sum of all stored values. -/
def total (m : Map) : Int := (m.map Prod.snd).sum

end Map

/-- The data members of `class Warehouse` (main.cpp:148-156); the mutex and the
condition variable are represented by the `Option` results of the operations. -/
structure Warehouse where
  storage_ : Map
  max_capacity_ : Int
  current_capacity_ : Int
  cumulative_load_ : Map
  max_trucks_ : Int
  trucks_loaded_ : Int
  is_finished_ : Bool

/-- The constructor `Warehouse(int max_capacity, int max_trucks)` (main.cpp:69-70). -/
def Warehouse.mk0 (max_capacity max_trucks : Int) : Warehouse :=
  { storage_ := [], max_capacity_ := max_capacity, current_capacity_ := 0,
    cumulative_load_ := [], max_trucks_ := max_trucks, trucks_loaded_ := 0,
    is_finished_ := false }

/-! ## The expression `max_capacity_ * 0.95` in binary64 -/

/-- The binary64 constant `0.95` is `mant095 / 2^53`. -/
def mant095 : Nat := 8556839292003942

/-- Number of binary digits of `n`, computed with `fuel` halving steps. -/
def bitLenAux : Nat → Nat → Nat
  | 0, _ => 0
  | fuel + 1, n => if n = 0 then 0 else bitLenAux fuel (n / 2) + 1

/-- Number of binary digits of `n` (`n` halving steps always suffice). -/
def bitLen (n : Nat) : Nat := bitLenAux n n

/-- Number of low bits that do not fit in a 53 bit significand. -/
def dropBits (n : Nat) : Nat := bitLen n - 53

/-- Round a natural number to 53 significant bits, to nearest, ties to even. -/
def round53 (n : Nat) : Nat :=
  let s := dropBits n
  let q := n / 2 ^ s
  let r := n % 2 ^ s
  if 2 ^ s < 2 * r ∨ (2 * r = 2 ^ s ∧ q % 2 = 1) then (q + 1) * 2 ^ s else q * 2 ^ s

/-- The binary64 value of `x * 0.95` for an `int` `x`, in units of `2^-53`:
the exact product `x * mant095` rounded to 53 significant bits. -/
def times095 (x : Int) : Int := x.sign * (round53 (x.natAbs * mant095) : Int)

/-- The comparison `current_capacity_ >= max_capacity_ * 0.95` (main.cpp:86, 94). -/
def atLeast095 (w : Warehouse) : Bool :=
  decide (times095 w.max_capacity_ ≤ w.current_capacity_ * 2 ^ 53)

/-- The comparison `current_capacity_ <= max_capacity_ * 0.95` (main.cpp:76). -/
def atMost095 (w : Warehouse) : Bool :=
  decide (w.current_capacity_ * 2 ^ 53 ≤ times095 w.max_capacity_)

/-! ## storeProduct -/

/-- Lines 80-82 of `storeProduct`: the batch is merged into the storage. -/
def addProduct (w : Warehouse) (product : Product) : Warehouse :=
  { w with
    storage_ := w.storage_.upd product.name (fun v => v + product.quantity)
    current_capacity_ := w.current_capacity_ + product.quantity }

/-- The part of `storeProduct` that runs when `condition_.wait` at line 76 returns:
the wait predicate `current_capacity_ <= max_capacity_ * 0.95 || is_finished_` holds,
line 77 discards the batch if the warehouse is finished, otherwise lines 80-82 run.
`none`: the predicate is false and the producer stays suspended. -/
def storeProductWoken (w : Warehouse) (product : Product) : Option Warehouse :=
  if atMost095 w || w.is_finished_ then
    if w.is_finished_ then some w else some (addProduct w product)
  else none

/-- The method `Warehouse::storeProduct` (main.cpp:73-89) called in state `w`. -/
def storeProduct (w : Warehouse) (product : Product) : Option Warehouse :=
  if w.current_capacity_ + product.quantity > w.max_capacity_ then
    storeProductWoken w product
  else some (addProduct w product)

/-! ## loadTruck -/

/-- The comparator of line 105: `a.second > b.second`. -/
def comp (a b : String × Int) : Bool := decide (a.2 > b.2)

/-- One insertion step of the sort: `x` is placed before the first element that it
precedes under `comp`. -/
def insertItem (x : String × Int) : List (String × Int) → List (String × Int)
  | [] => [x]
  | y :: ys => if comp x y then x :: y :: ys else y :: insertItem x ys

/-- The call `std::sort(items.begin(), items.end(), comp)` of line 105, as the
insertion sort that the standard library runs on short ranges: the elements are
taken left to right and inserted into the sorted part. Elements with equal
quantity keep their iteration order. -/
def sortItems (items : List (String × Int)) : List (String × Int) :=
  items.foldl (fun acc x => insertItem x acc) []

/-- The variables the loop of lines 109-118 reads and writes. -/
structure LoadState where
  storage_ : Map
  current_capacity_ : Int
  cumulative_load_ : Map
  truck_load : Map
  loaded_quantity : Int

/-- One executed iteration of the loop body (lines 112-117) for `item`. -/
def loadStep (capacity : Int) (item : String × Int) (st : LoadState) : LoadState :=
  let load := min item.2 (capacity - st.loaded_quantity)
  { storage_ := st.storage_.upd item.1 (fun v => v - load)
    current_capacity_ := st.current_capacity_ - load
    cumulative_load_ := st.cumulative_load_.upd item.1 (fun v => v + load)
    truck_load := st.truck_load.upd item.1 (fun _ => load)
    loaded_quantity := st.loaded_quantity + load }

/-- The loop of lines 109-118 over the sorted snapshot `items`; line 110 leaves the
loop as soon as `loaded_quantity >= capacity`. -/
def loadLoop (capacity : Int) : List (String × Int) → LoadState → LoadState
  | [], st => st
  | item :: rest, st =>
    if st.loaded_quantity ≥ capacity then st
    else loadLoop capacity rest (loadStep capacity item st)

/-- Loop entry state of `loadTruck`: empty `truck_load`, `loaded_quantity = 0`. -/
def loadStart (w : Warehouse) : LoadState :=
  { storage_ := w.storage_, current_capacity_ := w.current_capacity_,
    cumulative_load_ := w.cumulative_load_, truck_load := [], loaded_quantity := 0 }

/-- Lines 98-127 of `loadTruck`: the drain that proceeds. -/
def drain (w : Warehouse) (capacity : Int) : Warehouse × Map :=
  let st := loadLoop capacity (sortItems w.storage_) (loadStart w)
  let trucks := w.trucks_loaded_ + 1
  ({ storage_ := st.storage_
     max_capacity_ := w.max_capacity_
     current_capacity_ := st.current_capacity_
     cumulative_load_ := st.cumulative_load_
     max_trucks_ := w.max_trucks_
     trucks_loaded_ := trucks
     is_finished_ := if w.max_trucks_ > 0 ∧ trucks ≥ w.max_trucks_ then true
                     else w.is_finished_ },
   st.truck_load)

/-- The method `Warehouse::loadTruck` (main.cpp:92-128) in the state `w` in which the
caller holds the mutex: `none` when the wait predicate of line 94 is false (the caller
is suspended), the empty allocation when the warehouse is finished (line 96),
otherwise the drain. -/
def loadTruck (w : Warehouse) (capacity : Int) : Option (Warehouse × Map) :=
  if atLeast095 w || w.is_finished_ then
    if w.is_finished_ then some (w, []) else some (drain w capacity)
  else none

/-- The test `load.empty()` of line 172, on which `truckThreadFunction` leaves its
loop. -/
def loadEmpty (load : Map) : Bool := load.isEmpty

/-! ## printAverageLoadStats -/

/-- Binary exponent shift `k` for the quotient `q / t`: the one for which
`q * 2^k / t` has a 53 bit integer part, `2^52 ≤ q * 2^k / t < 2^53`
(for `0 < q < 2^53`, which covers every `int`). -/
def quotScale (q t : Nat) : Nat :=
  let k := 52 + bitLen t - bitLen q
  if q * 2 ^ k < 2 ^ 52 * t then k + 1 else k

/-- The integer nearest to `a / t`, ties to even. -/
def roundQuot (a t : Nat) : Nat :=
  let d := a / t
  let r := a % t
  if t < 2 * r ∨ (2 * r = t ∧ d % 2 = 1) then d + 1 else d

/-- A finite binary64 value, written `mant / 2^scale`. -/
structure Double64 where
  mant : Int
  scale : Nat
  deriving DecidableEq

/-- The rational number a binary64 value stands for. -/
def Double64.toRat (d : Double64) : ℚ := (d.mant : ℚ) / 2 ^ d.scale

/-- The binary64 quotient of two positive integers: the exact quotient rounded to 53
significant bits, to nearest, ties to even. -/
def divDouble (q t : Nat) : Double64 :=
  { mant := (roundQuot (q * 2 ^ quotScale q t) t : Int), scale := quotScale q t }

/-- The expression `static_cast<double>(quantity) / trucks_loaded_` of line 134.
`none` stands for the division by zero, which yields an infinity or a NaN and no
number. -/
def average (quantity trucks : Int) : Option Double64 :=
  if trucks = 0 then none
  else some { mant := quantity.sign * trucks.sign
                * (divDouble quantity.natAbs trucks.natAbs).mant
              scale := (divDouble quantity.natAbs trucks.natAbs).scale }

/-- The method `Warehouse::printAverageLoadStats` (main.cpp:131-138): the averages it
computes, one per bucket of `cumulative_load_`, in iteration order. -/
def printAverageLoadStats (w : Warehouse) : List (String × Option Double64) :=
  w.cumulative_load_.map (fun e => (e.1, average e.2 w.trucks_loaded_))

/-! ## Reachable states -/

/-- States of a warehouse constructed with `max_capacity`, `max_trucks` after any
sequence of completed operations whose deposited batches satisfy `ok`.
`woken` is a producer that was suspended earlier and resumes in the current state;
it is admitted in every state, which can only enlarge the set of reachable states
(and does not: see `storeProductWoken_covered`). -/
inductive Reach (ok : Product → Prop) (max_capacity max_trucks : Int) : Warehouse → Prop
  | init : Reach ok max_capacity max_trucks (Warehouse.mk0 max_capacity max_trucks)
  | store {w w' : Warehouse} (p : Product) :
      Reach ok max_capacity max_trucks w → ok p → storeProduct w p = some w' →
      Reach ok max_capacity max_trucks w'
  | woken {w w' : Warehouse} (p : Product) :
      Reach ok max_capacity max_trucks w → ok p → storeProductWoken w p = some w' →
      Reach ok max_capacity max_trucks w'
  | load {w w' : Warehouse} (capacity : Int) (alloc : Map) :
      Reach ok max_capacity max_trucks w → loadTruck w capacity = some (w', alloc) →
      Reach ok max_capacity max_trucks w'

/-! ## Notions used in the statements -/

/-- Descending by quantity: the order `std::sort` establishes for the comparator. -/
def Descending (l : List (String × Int)) : Prop := l.Pairwise (fun a b => b.2 ≤ a.2)

/-- Sum of all quantities of `m` that are strictly larger than `q`. -/
def largerSum (m : Map) (q : Int) : Int :=
  ((m.map Prod.snd).filter (fun v => decide (q < v))).sum

/-- Reference definition of the greedy allocation: what a bucket holding `q` gets from
a truck of the given capacity when all strictly larger buckets are served first. -/
def greedyAlloc (m : Map) (capacity q : Int) : Int :=
  min q (max 0 (capacity - largerSum m q))

/-- Every stored quantity is non-negative. -/
abbrev NonNeg (m : Map) : Prop := ∀ p ∈ m, 0 ≤ p.2

/-- The storage of the greedy allocation example: `{A: 100, B: 50, C: 10}` in a
warehouse of capacity 160 that is full. -/
def greedyExample : Warehouse :=
  { storage_ := [("A", 100), ("B", 50), ("C", 10)], max_capacity_ := 160,
    current_capacity_ := 160, cumulative_load_ := [], max_trucks_ := -1,
    trucks_loaded_ := 0, is_finished_ := false }

/-- A batch as `Factory::produce` builds it (main.cpp:52-57): the weight is 1.5 per
unit and the packaging is the default one. -/
def batch (name : String) (quantity : Int) : Product :=
  { name := name, quantity := quantity, weight := quantity * (3 / 2),
    packagingType := "standard" }

/-- A batch of 95 units of product `a`. -/
def batchA95 : Product := batch "a" 95

/-- A batch of 10 units of product `a`. -/
def batchA10 : Product := batch "a" 10

/-- The warehouse `Warehouse(100, 1)` after `storeProduct` of `batchA95`. -/
def afterStore : Warehouse :=
  { storage_ := [("a", 95)], max_capacity_ := 100, current_capacity_ := 95,
    cumulative_load_ := [], max_trucks_ := 1, trucks_loaded_ := 0, is_finished_ := false }

/-- The warehouse `afterStore` after `loadTruck(50)`: the only permitted truck has
been loaded and the warehouse is finished. -/
def afterDrain : Warehouse :=
  { storage_ := [("a", 45)], max_capacity_ := 100, current_capacity_ := 45,
    cumulative_load_ := [("a", 50)], max_trucks_ := 1, trucks_loaded_ := 1,
    is_finished_ := true }

/-- The warehouse `Warehouse(100, -1)` after `storeProduct` of 95 units of `a`,
`loadTruck(95)` and `storeProduct` of 95 units of `b`: bucket `a` has been emptied
and is still a key of `storage_`. -/
def zeroBucketExample : Warehouse :=
  { storage_ := [("a", 0), ("b", 95)], max_capacity_ := 100, current_capacity_ := 95,
    cumulative_load_ := [("a", 95)], max_trucks_ := -1, trucks_loaded_ := 1,
    is_finished_ := false }

/-- The warehouse `Warehouse(100, -1)` after deposits of 50 units of `A`, then 50
units of `B`. -/
def tieExampleAB : Warehouse :=
  { storage_ := [("A", 50), ("B", 50)], max_capacity_ := 100, current_capacity_ := 100,
    cumulative_load_ := [], max_trucks_ := -1, trucks_loaded_ := 0, is_finished_ := false }

/-- The warehouse `Warehouse(100, -1)` after deposits of 50 units of `B`, then 50
units of `A`: the same contents as `tieExampleAB`, enumerated in the other order. -/
def tieExampleBA : Warehouse :=
  { storage_ := [("B", 50), ("A", 50)], max_capacity_ := 100, current_capacity_ := 100,
    cumulative_load_ := [], max_trucks_ := -1, trucks_loaded_ := 0, is_finished_ := false }

/-- The warehouse `Warehouse(100, -1)` after a deposit of 100 units of `a`,
`loadTruck(5)` twice, a deposit of 5 units of `a` and `loadTruck(6)`: 16 units
shipped by 3 trucks. -/
def thirdsExample : Warehouse :=
  { storage_ := [("a", 89)], max_capacity_ := 100, current_capacity_ := 89,
    cumulative_load_ := [("a", 16)], max_trucks_ := -1, trucks_loaded_ := 3,
    is_finished_ := false }

/-- The state of the average computation example, `{A: 300, B: 150}` shipped by 3
trucks: `Warehouse(200, 3)` after a deposit of 200 units of `A`, `loadTruck(100)`, a
deposit of 100 units of `A`, `loadTruck(100)`, a deposit of 150 units of `B` and
`loadTruck(250)`. -/
def averageExample : Warehouse :=
  { storage_ := [("A", 0), ("B", 0)], max_capacity_ := 200, current_capacity_ := 0,
    cumulative_load_ := [("A", 300), ("B", 150)], max_trucks_ := 3, trucks_loaded_ := 3,
    is_finished_ := true }

/-- Any batch may be deposited. -/
abbrev anyBatch (_ : Product) : Prop := True

/-- Batches with a non-negative quantity. -/
abbrev nonnegBatch (p : Product) : Prop := 0 ≤ p.quantity


/-! ## Lemmas on the container model -/

namespace Map

theorem get_upd_same (m : Map) (k : String) (f : Int → Int) :
    get (upd m k f) k = f (get m k) := by
  induction m with
  | nil => simp [upd, get]
  | cons p m ih =>
    obtain ⟨k', v⟩ := p
    by_cases h : k' = k
    · simp [upd, get, h]
    · simp [upd, get, h, ih]

theorem get_upd_other (m : Map) (k j : String) (f : Int → Int) (h : j ≠ k) :
    get (upd m k f) j = get m j := by
  induction m with
  | nil => simp [upd, get, h.symm]
  | cons p m ih =>
    obtain ⟨k', v⟩ := p
    by_cases hk : k' = k
    · subst hk
      simp [upd, get, h.symm]
    · by_cases hj : k' = j
      · subst hj
        simp [upd, get, h]
      · simp [upd, get, hk, hj, ih]

theorem total_upd (m : Map) (k : String) (f : Int → Int) :
    total (upd m k f) = total m - get m k + f (get m k) := by
  induction m with
  | nil => simp [upd, get, total]
  | cons p m ih =>
    obtain ⟨k', v⟩ := p
    by_cases h : k' = k
    · simp [upd, get, total, h]
      ring
    · simp only [total] at ih
      simp [upd, get, total, h, ih]
      ring

theorem keys_upd_of_mem (m : Map) (k : String) (f : Int → Int) (h : k ∈ keys m) :
    keys (upd m k f) = keys m := by
  induction m with
  | nil => simp [keys] at h
  | cons p m ih =>
    obtain ⟨k', v⟩ := p
    by_cases hk : k' = k
    · simp [upd, keys, hk]
    · have hm : k ∈ keys m := by
        simp only [keys, List.map_cons, List.mem_cons] at h
        rcases h with h | h
        · exact absurd h.symm hk
        · exact h
      have := ih hm
      simp only [keys] at this
      simp [upd, keys, hk, this]

theorem keys_upd_of_not_mem (m : Map) (k : String) (f : Int → Int) (h : k ∉ keys m) :
    keys (upd m k f) = keys m ++ [k] := by
  induction m with
  | nil => simp [upd, keys]
  | cons p m ih =>
    obtain ⟨k', v⟩ := p
    simp only [keys, List.map_cons, List.mem_cons, not_or] at h
    have hk : ¬ k' = k := fun e => h.1 e.symm
    have := ih h.2
    simp only [keys] at this
    simp [upd, keys, hk, this]

theorem nodup_keys_upd (m : Map) (k : String) (f : Int → Int) (h : (keys m).Nodup) :
    (keys (upd m k f)).Nodup := by
  by_cases hk : k ∈ keys m
  · rw [keys_upd_of_mem m k f hk]; exact h
  · rw [keys_upd_of_not_mem m k f hk]
    exact List.Nodup.append h (List.nodup_singleton k) (by simpa using hk)

theorem mem_upd (m : Map) (k : String) (f : Int → Int) (p : String × Int)
    (h : p ∈ upd m k f) : p ∈ m ∨ p = (k, f (get m k)) := by
  induction m with
  | nil => simpa [upd, get] using h
  | cons e m ih =>
    obtain ⟨k', v⟩ := e
    by_cases hk : k' = k
    · simp only [upd, hk, if_true, List.mem_cons] at h
      rcases h with h | h
      · right; simp [h, get, hk]
      · left; exact List.mem_cons_of_mem _ h
    · simp only [upd, hk, if_false, List.mem_cons] at h
      rcases h with h | h
      · left; simp [h]
      · rcases ih h with h | h
        · left; exact List.mem_cons_of_mem _ h
        · right; simp [h, get, hk]

theorem get_of_mem (m : Map) (k : String) (v : Int) (hn : (keys m).Nodup)
    (h : (k, v) ∈ m) : get m k = v := by
  induction m with
  | nil => simp at h
  | cons e m ih =>
    obtain ⟨k', v'⟩ := e
    simp only [keys, List.map_cons, List.nodup_cons] at hn
    simp only [List.mem_cons, Prod.mk.injEq] at h
    rcases h with h | h
    · simp [get, h.1, h.2]
    · have hne : ¬ k' = k := by
        intro e
        apply hn.1
        rw [e]
        exact List.mem_map_of_mem Prod.fst h
      simp only [get, hne, if_false]
      exact ih hn.2 h

theorem mem_of_mem_keys (m : Map) (k : String) (h : k ∈ keys m) : (k, get m k) ∈ m := by
  induction m with
  | nil => simp [keys] at h
  | cons e m ih =>
    obtain ⟨k', v'⟩ := e
    by_cases hk : k' = k
    · simp [get, hk]
    · simp only [keys, List.map_cons, List.mem_cons] at h
      rcases h with h | h
      · exact absurd h.symm hk
      · simp only [get, hk, if_false]
        exact List.mem_cons_of_mem _ (ih h)

theorem get_eq_zero_of_not_mem (m : Map) (k : String) (h : k ∉ keys m) : get m k = 0 := by
  induction m with
  | nil => simp [get]
  | cons e m ih =>
    obtain ⟨k', v'⟩ := e
    simp only [keys, List.map_cons, List.mem_cons, not_or] at h
    have hk : ¬ k' = k := fun e => h.1 e.symm
    simp only [get, hk, if_false]
    exact ih h.2

end Map


/-! ## The sort -/

theorem insertItem_perm (x : String × Int) (l : List (String × Int)) :
    (insertItem x l).Perm (x :: l) := by
  induction l with
  | nil => simp [insertItem]
  | cons y ys ih =>
    by_cases h : comp x y = true
    · simp [insertItem, h]
    · simp only [insertItem, h]
      exact (List.Perm.cons y ih).trans (List.Perm.swap x y ys)

theorem foldl_insertItem_perm (items acc : List (String × Int)) :
    (items.foldl (fun acc x => insertItem x acc) acc).Perm (items ++ acc) := by
  induction items generalizing acc with
  | nil => simp
  | cons x xs ih =>
    simp only [List.foldl_cons, List.cons_append]
    refine (ih (insertItem x acc)).trans ?_
    refine (List.Perm.append_left xs (insertItem_perm x acc)).trans ?_
    exact List.perm_middle

theorem sortItems_perm (items : List (String × Int)) : (sortItems items).Perm items := by
  simpa [sortItems] using foldl_insertItem_perm items []

theorem insertItem_descending (x : String × Int) (l : List (String × Int))
    (h : Descending l) : Descending (insertItem x l) := by
  induction l with
  | nil => simp [insertItem, Descending]
  | cons y ys ih =>
    unfold Descending at h ih ⊢
    rw [List.pairwise_cons] at h
    by_cases hc : comp x y = true
    · simp only [insertItem, hc, if_true]
      have hxy : y.2 < x.2 := by simpa [comp] using hc
      refine List.pairwise_cons.2 ⟨?_, List.pairwise_cons.2 h⟩
      intro z hz
      rcases List.mem_cons.1 hz with hz | hz
      · subst hz; omega
      · have := h.1 z hz; omega
    · simp only [insertItem, hc]
      have hxy : x.2 ≤ y.2 := by simpa [comp] using hc
      refine List.pairwise_cons.2 ⟨?_, ih h.2⟩
      intro z hz
      rcases List.mem_cons.1 ((insertItem_perm x ys).subset hz) with hz | hz
      · subst hz; exact hxy
      · exact h.1 z hz

theorem foldl_insertItem_descending (items acc : List (String × Int)) (h : Descending acc) :
    Descending (items.foldl (fun acc x => insertItem x acc) acc) := by
  induction items generalizing acc with
  | nil => simpa using h
  | cons x xs ih => exact ih _ (insertItem_descending x acc h)

theorem sortItems_descending (items : List (String × Int)) : Descending (sortItems items) :=
  foldl_insertItem_descending items [] List.Pairwise.nil

theorem sortItems_keys_perm (m : Map) : (Map.keys (sortItems m)).Perm (Map.keys m) :=
  (sortItems_perm m).map Prod.fst

theorem sortItems_nodup_keys (m : Map) (h : (Map.keys m).Nodup) :
    (Map.keys (sortItems m)).Nodup :=
  (sortItems_keys_perm m).nodup_iff.2 h

theorem sortItems_total (m : Map) : Map.total (sortItems m) = Map.total m :=
  ((sortItems_perm m).map Prod.snd).sum_eq

/-! ## The loading loop -/

theorem loadLoop_nil (capacity : Int) (st : LoadState) : loadLoop capacity [] st = st := rfl

theorem loadLoop_break (capacity : Int) (item : String × Int) (rest : List (String × Int))
    (st : LoadState) (h : capacity ≤ st.loaded_quantity) :
    loadLoop capacity (item :: rest) st = st := by
  simp [loadLoop, h]

theorem loadLoop_step (capacity : Int) (item : String × Int) (rest : List (String × Int))
    (st : LoadState) (h : st.loaded_quantity < capacity) :
    loadLoop capacity (item :: rest) st = loadLoop capacity rest (loadStep capacity item st) := by
  have h' : ¬ capacity ≤ st.loaded_quantity := by omega
  simp [loadLoop, h']


theorem loadLoop_conserve (capacity : Int) (items : List (String × Int)) (st : LoadState) :
    Map.total (loadLoop capacity items st).storage_ - (loadLoop capacity items st).current_capacity_
        = Map.total st.storage_ - st.current_capacity_
    ∧ (loadLoop capacity items st).current_capacity_ + (loadLoop capacity items st).loaded_quantity
        = st.current_capacity_ + st.loaded_quantity := by
  induction items generalizing st with
  | nil => simp [loadLoop]
  | cons item rest ih =>
    by_cases h : capacity ≤ st.loaded_quantity
    · simp [loadLoop_break, h]
    · rw [loadLoop_step capacity item rest st (by omega)]
      obtain ⟨h1, h2⟩ := ih (loadStep capacity item st)
      rw [h1, h2]
      simp only [loadStep, Map.total_upd]
      constructor <;> ring

/-- Buckets that are not in the snapshot are not touched by the loop. -/
theorem loadLoop_frame (capacity : Int) (items : List (String × Int)) (st : LoadState)
    (k : String) (hk : k ∉ Map.keys items) :
    Map.get (loadLoop capacity items st).storage_ k = Map.get st.storage_ k
    ∧ Map.get (loadLoop capacity items st).cumulative_load_ k = Map.get st.cumulative_load_ k
    ∧ Map.get (loadLoop capacity items st).truck_load k = Map.get st.truck_load k := by
  induction items generalizing st with
  | nil => simp [loadLoop]
  | cons item rest ih =>
    simp only [Map.keys, List.map_cons, List.mem_cons, not_or] at hk
    by_cases h : capacity ≤ st.loaded_quantity
    · simp [loadLoop_break, h]
    · rw [loadLoop_step capacity item rest st (by omega)]
      obtain ⟨h1, h2, h3⟩ := ih (loadStep capacity item st) hk.2
      rw [h1, h2, h3]
      simp only [loadStep]
      exact ⟨Map.get_upd_other _ _ _ _ hk.1, Map.get_upd_other _ _ _ _ hk.1,
        Map.get_upd_other _ _ _ _ hk.1⟩

/-- The loop creates no bucket in the storage: the snapshot holds keys of the storage. -/
theorem loadLoop_keys_storage (capacity : Int) (items : List (String × Int)) (st : LoadState)
    (hsub : ∀ k ∈ Map.keys items, k ∈ Map.keys st.storage_) :
    Map.keys (loadLoop capacity items st).storage_ = Map.keys st.storage_ := by
  induction items generalizing st with
  | nil => simp [loadLoop]
  | cons item rest ih =>
    by_cases h : capacity ≤ st.loaded_quantity
    · simp [loadLoop_break, h]
    · rw [loadLoop_step capacity item rest st (by omega)]
      have hhead : item.1 ∈ Map.keys st.storage_ := hsub item.1 (by simp [Map.keys])
      have hst : Map.keys (loadStep capacity item st).storage_ = Map.keys st.storage_ := by
        simp only [loadStep]
        exact Map.keys_upd_of_mem _ _ _ hhead
      rw [ih (loadStep capacity item st) (by
        intro k hk
        rw [hst]
        exact hsub k (by simp only [Map.keys, List.map_cons, List.mem_cons]; right; exact hk)), hst]

theorem loadLoop_nodup (capacity : Int) (items : List (String × Int)) (st : LoadState)
    (hc : (Map.keys st.cumulative_load_).Nodup) (ht : (Map.keys st.truck_load).Nodup) :
    (Map.keys (loadLoop capacity items st).cumulative_load_).Nodup
    ∧ (Map.keys (loadLoop capacity items st).truck_load).Nodup := by
  induction items generalizing st with
  | nil => simp [loadLoop, hc, ht]
  | cons item rest ih =>
    by_cases h : capacity ≤ st.loaded_quantity
    · simp [loadLoop_break, h, hc, ht]
    · rw [loadLoop_step capacity item rest st (by omega)]
      exact ih (loadStep capacity item st) (Map.nodup_keys_upd _ _ _ hc)
        (Map.nodup_keys_upd _ _ _ ht)

/-- What the loop takes from a bucket and adds to its cumulative counter is what it
writes into `truck_load` for that bucket. -/
theorem loadLoop_delta (capacity : Int) (items : List (String × Int)) (st : LoadState)
    (hn : (Map.keys items).Nodup) (hz : ∀ k ∈ Map.keys items, Map.get st.truck_load k = 0)
    (k : String) :
    Map.get (loadLoop capacity items st).storage_ k
        = Map.get st.storage_ k
          - (Map.get (loadLoop capacity items st).truck_load k - Map.get st.truck_load k)
    ∧ Map.get (loadLoop capacity items st).cumulative_load_ k
        = Map.get st.cumulative_load_ k
          + (Map.get (loadLoop capacity items st).truck_load k - Map.get st.truck_load k) := by
  induction items generalizing st with
  | nil => simp [loadLoop]
  | cons item rest ih =>
    simp only [Map.keys, List.map_cons, List.nodup_cons] at hn
    by_cases h : capacity ≤ st.loaded_quantity
    · simp [loadLoop_break, h]
    · rw [loadLoop_step capacity item rest st (by omega)]
      have hz1 : ∀ j ∈ Map.keys rest, Map.get (loadStep capacity item st).truck_load j = 0 := by
        intro j hj
        have hne : j ≠ item.1 := fun e => hn.1 (e ▸ hj)
        simp only [loadStep]
        rw [Map.get_upd_other _ _ _ _ hne]
        exact hz j (by simp only [Map.keys, List.map_cons, List.mem_cons]; right; exact hj)
      obtain ⟨h1, h2⟩ := ih (loadStep capacity item st) hn.2 hz1
      rw [h1, h2]
      by_cases hk : k = item.1
      · subst hk
        have h0 : Map.get st.truck_load item.1 = 0 := hz item.1 (by simp [Map.keys])
        simp only [loadStep, Map.get_upd_same, h0]
        constructor <;> ring
      · simp only [loadStep, Map.get_upd_other _ _ _ _ hk]
        simp

theorem loadLoop_truck_total (capacity : Int) (items : List (String × Int)) (st : LoadState)
    (hn : (Map.keys items).Nodup) (hz : ∀ k ∈ Map.keys items, Map.get st.truck_load k = 0) :
    Map.total (loadLoop capacity items st).truck_load - (loadLoop capacity items st).loaded_quantity
      = Map.total st.truck_load - st.loaded_quantity := by
  induction items generalizing st with
  | nil => simp [loadLoop]
  | cons item rest ih =>
    simp only [Map.keys, List.map_cons, List.nodup_cons] at hn
    by_cases h : capacity ≤ st.loaded_quantity
    · simp [loadLoop_break, h]
    · rw [loadLoop_step capacity item rest st (by omega)]
      have hz1 : ∀ j ∈ Map.keys rest, Map.get (loadStep capacity item st).truck_load j = 0 := by
        intro j hj
        have hne : j ≠ item.1 := fun e => hn.1 (e ▸ hj)
        simp only [loadStep]
        rw [Map.get_upd_other _ _ _ _ hne]
        exact hz j (by simp only [Map.keys, List.map_cons, List.mem_cons]; right; exact hj)
      rw [ih (loadStep capacity item st) hn.2 hz1]
      have h0 : Map.get st.truck_load item.1 = 0 := hz item.1 (by simp [Map.keys])
      simp only [loadStep, Map.total_upd, h0]
      ring

theorem loadLoop_loaded_le (capacity : Int) (items : List (String × Int)) (st : LoadState)
    (h0 : st.loaded_quantity ≤ capacity) :
    (loadLoop capacity items st).loaded_quantity ≤ capacity := by
  induction items generalizing st with
  | nil => simpa [loadLoop] using h0
  | cons item rest ih =>
    by_cases h : capacity ≤ st.loaded_quantity
    · simpa [loadLoop_break, h] using h0
    · rw [loadLoop_step capacity item rest st (by omega)]
      apply ih
      simp only [loadStep]
      have := min_le_right item.2 (capacity - st.loaded_quantity)
      omega


theorem zero_start_step (capacity : Int) (item : String × Int) (rest : List (String × Int))
    (st : LoadState) (hn : (Map.keys (item :: rest)).Nodup)
    (hz : ∀ k ∈ Map.keys (item :: rest), Map.get st.truck_load k = 0) :
    ∀ j ∈ Map.keys rest, Map.get (loadStep capacity item st).truck_load j = 0 := by
  simp only [Map.keys, List.map_cons, List.nodup_cons] at hn
  intro j hj
  have hne : j ≠ item.1 := fun e => hn.1 (e ▸ hj)
  simp only [loadStep]
  rw [Map.get_upd_other _ _ _ _ hne]
  exact hz j (by simp only [Map.keys, List.map_cons, List.mem_cons]; right; exact hj)

/-- Every bucket of the snapshot is allocated between nothing and its whole quantity. -/
theorem loadLoop_truck_bounds (capacity : Int) (items : List (String × Int)) (st : LoadState)
    (hn : (Map.keys items).Nodup) (hz : ∀ k ∈ Map.keys items, Map.get st.truck_load k = 0)
    (hpos : ∀ p ∈ items, 0 ≤ p.2) (k : String) (q : Int) (hk : (k, q) ∈ items) :
    0 ≤ Map.get (loadLoop capacity items st).truck_load k
    ∧ Map.get (loadLoop capacity items st).truck_load k ≤ q := by
  induction items generalizing st with
  | nil => simp at hk
  | cons item rest ih =>
    by_cases h : capacity ≤ st.loaded_quantity
    · rw [loadLoop_break _ _ _ _ h, hz k (List.mem_map_of_mem Prod.fst hk)]
      exact ⟨le_refl 0, hpos (k, q) hk⟩
    · rw [loadLoop_step capacity item rest st (by omega)]
      have hz1 := zero_start_step capacity item rest st hn hz
      simp only [Map.keys, List.map_cons, List.nodup_cons] at hn
      rcases List.mem_cons.1 hk with hk | hk
      · subst hk
        rw [(loadLoop_frame capacity rest (loadStep capacity (k, q) st) k hn.1).2.2]
        simp only [loadStep, Map.get_upd_same]
        have hq : 0 ≤ q := hpos (k, q) (List.mem_cons_self _ _)
        refine ⟨le_min hq (by omega), min_le_left _ _⟩
      · exact ih (loadStep capacity item st) hn.2 hz1
          (fun p hp => hpos p (List.mem_cons_of_mem _ hp)) hk

/-- With non-negative quantities the loop stops at the pull capacity or at the end
of the storage, whichever comes first. -/
theorem loadLoop_loaded_eq (capacity : Int) (items : List (String × Int)) (st : LoadState)
    (hpos : ∀ p ∈ items, 0 ≤ p.2) (h0 : st.loaded_quantity ≤ capacity) :
    (loadLoop capacity items st).loaded_quantity
      = min capacity (st.loaded_quantity + Map.total items) := by
  induction items generalizing st with
  | nil => simp [loadLoop, Map.total, h0]
  | cons item rest ih =>
    have hrest : 0 ≤ Map.total rest := by
      simp only [Map.total]
      apply List.sum_nonneg
      intro x hx
      obtain ⟨p, hp, rfl⟩ := List.mem_map.1 hx
      exact hpos p (List.mem_cons_of_mem _ hp)
    have hitem : 0 ≤ item.2 := hpos item (List.mem_cons_self _ _)
    have htot : Map.total (item :: rest) = item.2 + Map.total rest := by simp [Map.total]
    by_cases h : capacity ≤ st.loaded_quantity
    · rw [loadLoop_break _ _ _ _ h, htot]
      have : capacity ≤ st.loaded_quantity + (item.2 + Map.total rest) := by omega
      rw [min_eq_left this]
      omega
    · rw [loadLoop_step capacity item rest st (by omega),
        ih (loadStep capacity item st) (fun p hp => hpos p (List.mem_cons_of_mem _ hp)) (by
          simp only [loadStep]
          have := min_le_right item.2 (capacity - st.loaded_quantity)
          omega), htot]
      simp only [loadStep]
      rcases le_total item.2 (capacity - st.loaded_quantity) with hle | hle
      · rw [min_eq_left hle]
        congr 1
        ring
      · rw [min_eq_right hle]
        rw [min_eq_left (by omega), min_eq_left (by omega)]

/-- If the loop ends below the pull capacity, it has taken every bucket whole. -/
theorem loadLoop_not_full (capacity : Int) (items : List (String × Int)) (st : LoadState)
    (hn : (Map.keys items).Nodup) (hz : ∀ k ∈ Map.keys items, Map.get st.truck_load k = 0)
    (hlt : (loadLoop capacity items st).loaded_quantity < capacity)
    (k : String) (q : Int) (hk : (k, q) ∈ items) :
    Map.get (loadLoop capacity items st).truck_load k = q := by
  induction items generalizing st with
  | nil => simp at hk
  | cons item rest ih =>
    by_cases h : capacity ≤ st.loaded_quantity
    · rw [loadLoop_break _ _ _ _ h] at hlt
      omega
    · rw [loadLoop_step capacity item rest st (by omega)] at hlt ⊢
      have hz1 := zero_start_step capacity item rest st hn hz
      simp only [Map.keys, List.map_cons, List.nodup_cons] at hn
      rcases List.mem_cons.1 hk with hk | hk
      · subst hk
        rw [(loadLoop_frame capacity rest (loadStep capacity (k, q) st) k hn.1).2.2]
        simp only [loadStep, Map.get_upd_same]
        rcases le_total q (capacity - st.loaded_quantity) with hle | hle
        · exact min_eq_left hle
        · exfalso
          have hfull : capacity ≤ (loadStep capacity (k, q) st).loaded_quantity := by
            simp only [loadStep]
            rw [min_eq_right hle]
            omega
          cases rest with
          | nil =>
            rw [loadLoop_nil] at hlt
            omega
          | cons r rs =>
            rw [loadLoop_break _ _ _ _ hfull] at hlt
            omega
      · exact ih (loadStep capacity item st) hn.2 hz1 hlt hk


theorem largerSum_cons_lt (item : String × Int) (rest : Map) (q : Int) (h : q < item.2) :
    largerSum (item :: rest) q = item.2 + largerSum rest q := by
  simp [largerSum, List.filter_cons, h]

theorem largerSum_cons_ge (item : String × Int) (rest : Map) (q : Int) (h : item.2 ≤ q) :
    largerSum (item :: rest) q = largerSum rest q := by
  have h' : ¬ q < item.2 := by omega
  simp [largerSum, List.filter_cons, h']

theorem largerSum_nonneg (m : Map) (q : Int) (hpos : NonNeg m) : 0 ≤ largerSum m q := by
  induction m with
  | nil => simp [largerSum]
  | cons item rest ih =>
    have hr := ih (fun p hp => hpos p (List.mem_cons_of_mem _ hp))
    have hi : 0 ≤ item.2 := hpos item (List.mem_cons_self _ _)
    by_cases h : q < item.2
    · rw [largerSum_cons_lt item rest q h]; omega
    · rw [largerSum_cons_ge item rest q (by omega)]; exact hr

theorem largerSum_eq_zero (m : Map) (q : Int) (h : ∀ p ∈ m, p.2 ≤ q) : largerSum m q = 0 := by
  induction m with
  | nil => simp [largerSum]
  | cons item rest ih =>
    rw [largerSum_cons_ge item rest q (h item (List.mem_cons_self _ _))]
    exact ih (fun p hp => h p (List.mem_cons_of_mem _ hp))

theorem largerSum_perm (m m' : Map) (q : Int) (h : m.Perm m') :
    largerSum m q = largerSum m' q :=
  (((h.map Prod.snd).filter _).sum_eq)

/-- The loop, run over strictly descending non-negative quantities, realises the
reference allocation shifted by what is already loaded. -/
theorem loadLoop_truck_get (capacity : Int) (items : List (String × Int)) (st : LoadState)
    (hn : (Map.keys items).Nodup) (hz : ∀ k ∈ Map.keys items, Map.get st.truck_load k = 0)
    (hpos : NonNeg items) (hs : items.Pairwise (fun a b => b.2 < a.2))
    (k : String) (q : Int) (hk : (k, q) ∈ items) :
    Map.get (loadLoop capacity items st).truck_load k
      = min q (max 0 (capacity - st.loaded_quantity - largerSum items q)) := by
  induction items generalizing st with
  | nil => simp at hk
  | cons item rest ih =>
    have hq : 0 ≤ q := hpos (k, q) hk
    have hposr : NonNeg rest := fun p hp => hpos p (List.mem_cons_of_mem _ hp)
    rw [List.pairwise_cons] at hs
    by_cases h : capacity ≤ st.loaded_quantity
    · rw [loadLoop_break _ _ _ _ h, hz k (List.mem_map_of_mem Prod.fst hk)]
      have hS := largerSum_nonneg (item :: rest) q hpos
      rw [max_eq_left (by omega), min_eq_right hq]
    · rw [loadLoop_step capacity item rest st (by omega)]
      have hz1 := zero_start_step capacity item rest st hn hz
      simp only [Map.keys, List.map_cons, List.nodup_cons] at hn
      rcases List.mem_cons.1 hk with hk | hk
      · subst hk
        rw [(loadLoop_frame capacity rest (loadStep capacity (k, q) st) k hn.1).2.2]
        have hS : largerSum ((k, q) :: rest) q = 0 := by
          apply largerSum_eq_zero
          intro p hp
          rcases List.mem_cons.1 hp with hp | hp
          · subst hp; exact le_refl _
          · exact le_of_lt (hs.1 p hp)
        simp only [loadStep, Map.get_upd_same, hS]
        rw [max_eq_right (by omega)]
        simp
      · rw [ih (loadStep capacity item st) hn.2 hz1 hposr hs.2 hk]
        have hlt : q < item.2 := hs.1 (k, q) hk
        rw [largerSum_cons_lt item rest q hlt]
        have hS := largerSum_nonneg rest q hposr
        simp only [loadStep]
        rcases le_total item.2 (capacity - st.loaded_quantity) with hle | hle
        · rw [min_eq_left hle]
          congr 2
          ring
        · rw [min_eq_right hle, max_eq_left (by omega), max_eq_left (by omega)]


/-! ## The drain as a whole -/

theorem mem_sortItems (m : Map) (p : String × Int) : p ∈ sortItems m ↔ p ∈ m :=
  (sortItems_perm m).mem_iff

theorem mem_keys_sortItems (m : Map) (k : String) :
    k ∈ Map.keys (sortItems m) ↔ k ∈ Map.keys m :=
  (sortItems_keys_perm m).mem_iff

theorem loadStart_zero (w : Warehouse) (items : List (String × Int)) :
    ∀ k ∈ Map.keys items, Map.get (loadStart w).truck_load k = 0 := by
  intro k _
  simp [loadStart, Map.get]

/-- A `loadTruck` call that returns in a state that is not finished ran the drain, and
the threshold test of line 94 held. -/
theorem loadTruck_proceeds (w : Warehouse) (capacity : Int) (r : Warehouse × Map)
    (hfin : w.is_finished_ = false) (hrun : loadTruck w capacity = some r) :
    r = drain w capacity ∧ atLeast095 w = true := by
  unfold loadTruck at hrun
  by_cases h : atLeast095 w = true
  · simp [h, hfin] at hrun
    exact ⟨hrun.symm, h⟩
  · simp [h, hfin] at hrun

/-- The drain takes from each bucket, and adds to its cumulative counter, exactly the
amount it allocates to the bucket. -/
theorem drain_delta (w : Warehouse) (capacity : Int) (hn : (Map.keys w.storage_).Nodup)
    (k : String) :
    Map.get (drain w capacity).1.storage_ k
        = Map.get w.storage_ k - Map.get (drain w capacity).2 k
    ∧ Map.get (drain w capacity).1.cumulative_load_ k
        = Map.get w.cumulative_load_ k + Map.get (drain w capacity).2 k := by
  have h := loadLoop_delta capacity (sortItems w.storage_) (loadStart w)
    (sortItems_nodup_keys _ hn) (loadStart_zero w _) k
  simpa [drain, loadStart, Map.get] using h

theorem drain_keys_storage (w : Warehouse) (capacity : Int) :
    Map.keys (drain w capacity).1.storage_ = Map.keys w.storage_ := by
  have h := loadLoop_keys_storage capacity (sortItems w.storage_) (loadStart w)
    (fun k hk => (mem_keys_sortItems w.storage_ k).1 hk)
  simpa [drain, loadStart] using h

theorem sortItems_strict (m : Map) (hdist : (m.map Prod.snd).Nodup) :
    (sortItems m).Pairwise (fun a b => b.2 < a.2) := by
  have h1 : (sortItems m).Pairwise (fun a b => a.2 ≠ b.2) := by
    have : ((sortItems m).map Prod.snd).Nodup :=
      ((sortItems_perm m).map Prod.snd).nodup_iff.2 hdist
    exact List.pairwise_map.1 this
  have h2 := sortItems_descending m
  unfold Descending at h2
  exact (h2.and h1).imp (fun h => lt_of_le_of_ne h.1 (Ne.symm h.2))

/-- C1. Greedy allocation equals its reference definition: in a buffer whose bucket
quantities are non-negative and pairwise distinct, a drain that proceeds allocates to
every bucket `b` holding `q` exactly `min q (max 0 (capacity - S))`, with `S` the sum
of the quantities strictly larger than `q`, and leaves `q` minus that amount in the
storage (for every pull capacity, in particular every capacity `≥ 0`). -/
theorem greedy_allocation_reference (w w' : Warehouse) (capacity : Int) (alloc : Map)
    (hkeys : (Map.keys w.storage_).Nodup) (hpos : NonNeg w.storage_)
    (hdist : (w.storage_.map Prod.snd).Nodup) (hfin : w.is_finished_ = false)
    (hrun : loadTruck w capacity = some (w', alloc)) (b : String) (q : Int)
    (hb : (b, q) ∈ w.storage_) :
    Map.get alloc b = greedyAlloc w.storage_ capacity q
    ∧ Map.get w'.storage_ b = q - greedyAlloc w.storage_ capacity q := by
  obtain ⟨hr, -⟩ := loadTruck_proceeds w capacity (w', alloc) hfin hrun
  have hw' : w' = (drain w capacity).1 := congrArg Prod.fst hr
  have ha : alloc = (drain w capacity).2 := congrArg Prod.snd hr
  have hget : Map.get (drain w capacity).2 b = greedyAlloc w.storage_ capacity q := by
    have h := loadLoop_truck_get capacity (sortItems w.storage_) (loadStart w)
      (sortItems_nodup_keys _ hkeys) (loadStart_zero w _)
      (fun p hp => hpos p ((mem_sortItems _ p).1 hp)) (sortItems_strict _ hdist)
      b q ((mem_sortItems _ _).2 hb)
    rw [largerSum_perm _ _ q (sortItems_perm w.storage_)] at h
    simpa [drain, loadStart, greedyAlloc] using h
  have hd := (drain_delta w capacity hkeys b).1
  rw [Map.get_of_mem _ _ _ hkeys hb] at hd
  rw [hw', ha, hd, hget]
  exact ⟨rfl, rfl⟩

/-- C1, the example of the specification: contents `{A: 100, B: 50, C: 10}` and pull
capacity 120 give the allocation `A = 100`, `B = 20`, nothing for `C`, and the new
contents `{A: 0, B: 30, C: 10}`. -/
theorem greedy_allocation_reference_witness :
    (Map.get (drain greedyExample 120).2 "A" = 100
      ∧ Map.get (drain greedyExample 120).1.storage_ "A" = 0)
    ∧ (Map.get (drain greedyExample 120).2 "B" = 20
      ∧ Map.get (drain greedyExample 120).1.storage_ "B" = 30)
    ∧ (Map.get (drain greedyExample 120).2 "C" = 0
      ∧ Map.get (drain greedyExample 120).1.storage_ "C" = 10) :=
  ⟨greedy_allocation_reference greedyExample _ 120 _ (by decide) (by decide) (by decide)
      rfl rfl "A" 100 (by decide),
   greedy_allocation_reference greedyExample _ 120 _ (by decide) (by decide) (by decide)
      rfl rfl "B" 50 (by decide),
   greedy_allocation_reference greedyExample _ 120 _ (by decide) (by decide) (by decide)
      rfl rfl "C" 10 (by decide)⟩


/-! ## Effects of the operations, case by case -/

/-- A completed `storeProduct` either discarded the batch or merged it. -/
theorem storeProductWoken_cases (w w' : Warehouse) (p : Product)
    (h : storeProductWoken w p = some w') :
    (w.is_finished_ = true ∧ w' = w) ∨ (w.is_finished_ = false ∧ w' = addProduct w p) := by
  unfold storeProductWoken at h
  by_cases hf : w.is_finished_ = true
  · simp [hf] at h
    exact Or.inl ⟨hf, h.symm⟩
  · have hf' : w.is_finished_ = false := by simpa using hf
    by_cases ha : atMost095 w = true
    · simp [ha, hf'] at h
      exact Or.inr ⟨hf', h.symm⟩
    · simp [ha, hf'] at h

theorem storeProduct_cases (w w' : Warehouse) (p : Product) (h : storeProduct w p = some w') :
    w' = w ∨ w' = addProduct w p := by
  unfold storeProduct at h
  by_cases ho : w.current_capacity_ + p.quantity > w.max_capacity_
  · simp only [ho, if_true] at h
    rcases storeProductWoken_cases w w' p h with h | h
    · exact Or.inl h.2
    · exact Or.inr h.2
  · simp only [ho, if_false, Option.some.injEq] at h
    exact Or.inr h.symm

/-- Everything a woken producer does to the warehouse, a fresh call in the same state
does as well, unless it leaves the state as it is. -/
theorem storeProductWoken_covered (w w' : Warehouse) (p : Product)
    (h : storeProductWoken w p = some w') : w' = w ∨ storeProduct w p = some w' := by
  rcases storeProductWoken_cases w w' p h with hc | hc
  · exact Or.inl hc.2
  · right
    unfold storeProduct
    by_cases ho : w.current_capacity_ + p.quantity > w.max_capacity_
    · simp only [ho, if_true]; exact h
    · simp only [ho, if_false]; rw [hc.2]

/-- A completed `loadTruck` either found the warehouse finished and did nothing, or
passed the threshold test in an unfinished warehouse and ran the drain. -/
theorem loadTruck_cases (w w' : Warehouse) (capacity : Int) (alloc : Map)
    (h : loadTruck w capacity = some (w', alloc)) :
    (w.is_finished_ = true ∧ w' = w ∧ alloc = [])
    ∨ (w.is_finished_ = false ∧ atLeast095 w = true ∧ (w', alloc) = drain w capacity) := by
  by_cases hf : w.is_finished_ = true
  · left
    unfold loadTruck at h
    simp [hf] at h
    exact ⟨hf, h.1.symm, h.2⟩
  · have hf' : w.is_finished_ = false := by simpa using hf
    obtain ⟨h1, h2⟩ := loadTruck_proceeds w capacity (w', alloc) hf' h
    exact Or.inr ⟨hf', h2, h1⟩

/-- Induction over the reachable states: a property that holds after construction and
is kept by every merge of a batch and by every drain holds in all reachable states. -/
theorem Reach.invariant {ok : Product → Prop} {C K : Int} (P : Warehouse → Prop)
    (h0 : P (Warehouse.mk0 C K))
    (hadd : ∀ w p, P w → ok p → P (addProduct w p))
    (hdrain : ∀ w capacity, P w → w.is_finished_ = false → P (drain w capacity).1)
    (w : Warehouse) (hw : Reach ok C K w) : P w := by
  induction hw with
  | init => exact h0
  | store p _ hok hs ih =>
    rcases storeProduct_cases _ _ p hs with h | h
    · rw [h]; exact ih
    · rw [h]; exact hadd _ p ih hok
  | woken p _ hok hs ih =>
    rcases storeProductWoken_cases _ _ p hs with h | h
    · rw [h.2]; exact ih
    · rw [h.2]; exact hadd _ p ih hok
  | load capacity alloc _ hl ih =>
    rcases loadTruck_cases _ _ capacity alloc hl with h | h
    · rw [h.2.1]; exact ih
    · have hfst := congrArg Prod.fst h.2.2
      simp only at hfst
      rw [hfst]; exact hdrain _ capacity ih h.1

theorem Reach.mono {ok ok' : Product → Prop} {C K : Int} (himp : ∀ p, ok p → ok' p)
    (w : Warehouse) (hw : Reach ok C K w) : Reach ok' C K w := by
  induction hw with
  | init => exact Reach.init
  | store p _ hok hs ih => exact Reach.store p ih (himp p hok) hs
  | woken p _ hok hs ih => exact Reach.woken p ih (himp p hok) hs
  | load capacity alloc _ hl ih => exact Reach.load capacity alloc ih hl

/-- The containers of a reachable warehouse have unique keys. -/
theorem Reach.nodup {ok : Product → Prop} {C K : Int} (w : Warehouse) (hw : Reach ok C K w) :
    (Map.keys w.storage_).Nodup ∧ (Map.keys w.cumulative_load_).Nodup := by
  refine Reach.invariant
    (fun w => (Map.keys w.storage_).Nodup ∧ (Map.keys w.cumulative_load_).Nodup)
    ?_ ?_ ?_ w hw
  · simp [Warehouse.mk0, Map.keys]
  · intro w p h _
    exact ⟨Map.nodup_keys_upd _ _ _ h.1, h.2⟩
  · intro w capacity h _
    refine ⟨?_, ?_⟩
    · rw [drain_keys_storage]; exact h.1
    · exact (loadLoop_nodup capacity (sortItems w.storage_) (loadStart w) h.2
        (by simp [loadStart, Map.keys])).1

/-- The construction parameters never change. -/
theorem Reach.params {ok : Product → Prop} {C K : Int} (w : Warehouse) (hw : Reach ok C K w) :
    w.max_capacity_ = C ∧ w.max_trucks_ = K := by
  refine Reach.invariant (fun w => w.max_capacity_ = C ∧ w.max_trucks_ = K) ?_ ?_ ?_ w hw
  · simp [Warehouse.mk0]
  · intro w p h _; exact h
  · intro w capacity h _; exact h

/-- Storage and running total move together. -/
theorem Reach.total_eq {ok : Product → Prop} {C K : Int} (w : Warehouse)
    (hw : Reach ok C K w) : Map.total w.storage_ = w.current_capacity_ := by
  refine Reach.invariant (fun w => Map.total w.storage_ = w.current_capacity_) ?_ ?_ ?_ w hw
  · simp [Warehouse.mk0, Map.total]
  · intro w p h _
    simp only [addProduct, Map.total_upd]
    omega
  · intro w capacity h _
    have hc := (loadLoop_conserve capacity (sortItems w.storage_) (loadStart w)).1
    simp only [loadStart] at hc
    simp only [drain, loadStart]
    omega


/-! ## A concrete run -/

theorem afterStore_reach (ok : Product → Prop) (h : ok batchA95) :
    Reach ok 100 1 afterStore :=
  Reach.store batchA95 Reach.init h (by rfl)

theorem afterDrain_reach (ok : Product → Prop) (h : ok batchA95) :
    Reach ok 100 1 afterDrain :=
  Reach.load 50 [("a", 50)] (afterStore_reach ok h) (by rfl)

/-- C2. Conservation: in every state reachable from a freshly constructed warehouse by
any sequence of `storeProduct` and `loadTruck` operations, the sum of all bucket
quantities in `storage_` equals `current_capacity_`. -/
theorem conservation (C K : Int) (w : Warehouse) (hw : Reach anyBatch C K w) :
    Map.total w.storage_ = w.current_capacity_ :=
  Reach.total_eq w hw

/-- C2 on the concrete run: after a deposit of 95 and a drain of 50 the storage sums
to the running total 45. -/
theorem conservation_witness :
    Reach anyBatch 100 1 afterDrain
    ∧ Map.total afterDrain.storage_ = afterDrain.current_capacity_ :=
  ⟨afterDrain_reach anyBatch trivial,
   conservation 100 1 afterDrain (afterDrain_reach anyBatch trivial)⟩


/-- C3. Silent discard, evaluated on the code: `afterDrain` is reachable and finished,
yet `storeProduct` of a batch that fits under the capacity skips the test of line 77
and merges the batch: `storage_` goes from `a: 45` to `a: 55` and `current_capacity_`
from 45 to 55. -/
theorem store_after_finished_merges :
    Reach nonnegBatch 100 1 afterDrain
    ∧ afterDrain.is_finished_ = true
    ∧ storeProduct afterDrain batchA10
        = some { afterDrain with storage_ := [("a", 55)], current_capacity_ := 55 } :=
  ⟨afterDrain_reach nonnegBatch (by decide), rfl, by rfl⟩

/-- The total of the allocation is the final `loaded_quantity`. -/
theorem drain_total_alloc (w : Warehouse) (capacity : Int) (hn : (Map.keys w.storage_).Nodup) :
    Map.total (drain w capacity).2
      = (loadLoop capacity (sortItems w.storage_) (loadStart w)).loaded_quantity := by
  have h := loadLoop_truck_total capacity (sortItems w.storage_) (loadStart w)
    (sortItems_nodup_keys _ hn) (loadStart_zero w _)
  simp only [loadStart, Map.total, List.map_nil, List.sum_nil] at h
  simp only [drain, loadStart, Map.total]
  omega

/-- C4. Drain fills the truck unless storage runs out: in a buffer whose bucket
quantities are all non-negative (and sum to `current_capacity_`), for a pull capacity
`≥ 0`, the total of the allocation returned by a drain that proceeds is
`min capacity current_capacity_`; if it is less than the pull capacity, the drain has
emptied every bucket. -/
theorem drain_fills_truck (w w' : Warehouse) (capacity : Int) (alloc : Map)
    (hkeys : (Map.keys w.storage_).Nodup) (hpos : NonNeg w.storage_)
    (hsum : Map.total w.storage_ = w.current_capacity_) (hcap : 0 ≤ capacity)
    (hfin : w.is_finished_ = false) (hrun : loadTruck w capacity = some (w', alloc)) :
    Map.total alloc = min capacity w.current_capacity_
    ∧ (Map.total alloc < capacity → ∀ p ∈ w'.storage_, p.2 = 0) := by
  obtain ⟨hr, -⟩ := loadTruck_proceeds w capacity (w', alloc) hfin hrun
  have hw' : w' = (drain w capacity).1 := congrArg Prod.fst hr
  have ha : alloc = (drain w capacity).2 := congrArg Prod.snd hr
  have hposs : NonNeg (sortItems w.storage_) := fun p hp => hpos p ((mem_sortItems _ p).1 hp)
  have htot := drain_total_alloc w capacity hkeys
  have hld := loadLoop_loaded_eq capacity (sortItems w.storage_) (loadStart w) hposs
    (by simpa [loadStart] using hcap)
  rw [sortItems_total, hsum] at hld
  simp only [loadStart, zero_add] at hld
  simp only [loadStart] at htot
  refine ⟨by rw [ha, htot, hld], ?_⟩
  intro hlt p hp
  rw [ha, htot] at hlt
  rw [hw'] at hp
  obtain ⟨k, v⟩ := p
  have hk' : k ∈ Map.keys (drain w capacity).1.storage_ := List.mem_map_of_mem Prod.fst hp
  have hnd' : (Map.keys (drain w capacity).1.storage_).Nodup := by
    rw [drain_keys_storage]; exact hkeys
  have hv := Map.get_of_mem _ _ _ hnd' hp
  rw [drain_keys_storage] at hk'
  have hmem := Map.mem_of_mem_keys _ _ hk'
  have hall := loadLoop_not_full capacity (sortItems w.storage_) (loadStart w)
    (sortItems_nodup_keys _ hkeys) (loadStart_zero w _) (by simpa [loadStart] using hlt)
    k (Map.get w.storage_ k) ((mem_sortItems _ _).2 hmem)
  have hd := (drain_delta w capacity hkeys k).1
  have hall' : Map.get (drain w capacity).2 k = Map.get w.storage_ k := by
    simpa [drain, loadStart] using hall
  show v = 0
  rw [← hv, hd, hall']
  ring

/-- C4 on the example `{A: 100, B: 50, C: 10}`: a truck of capacity 120 is filled
(total 120), a truck of capacity 500 gets the 160 stored units and leaves every
bucket empty. -/
theorem drain_fills_truck_witness :
    (Map.total (drain greedyExample 120).2 = 120)
    ∧ (Map.total (drain greedyExample 500).2 = 160
        ∧ ∀ p ∈ (drain greedyExample 500).1.storage_, p.2 = 0) :=
  ⟨(drain_fills_truck greedyExample _ 120 _ (by decide) (by decide) (by decide)
      (by decide) rfl rfl).1,
   (drain_fills_truck greedyExample _ 500 _ (by decide) (by decide) (by decide)
      (by decide) rfl rfl).1,
   (drain_fills_truck greedyExample _ 500 _ (by decide) (by decide) (by decide)
      (by decide) rfl rfl).2 (by decide)⟩

/-- The example warehouse is what `Warehouse(160, -1)` holds after deposits of 100
units of `A`, 50 of `B` and 10 of `C`. -/
theorem greedyExample_reach : Reach nonnegBatch 160 (-1) greedyExample := by
  have h1 : Reach nonnegBatch 160 (-1) (addProduct (Warehouse.mk0 160 (-1)) (batch "A" 100)) :=
    Reach.store (batch "A" 100) Reach.init (by decide) (by rfl)
  have h2 : Reach nonnegBatch 160 (-1)
      (addProduct (addProduct (Warehouse.mk0 160 (-1)) (batch "A" 100)) (batch "B" 50)) :=
    Reach.store (batch "B" 50) h1 (by decide) (by rfl)
  exact Reach.store (batch "C" 10) h2 (by decide) (by rfl)

/-- C5 as stated fails for a negative pull capacity: on the reachable, full example
warehouse `loadTruck(-1)` proceeds, line 110 leaves the loop at once, and the empty
allocation sums to `0`, which is not `≤ -1`. -/
theorem pull_capacity_negative_counterexample :
    Reach nonnegBatch 160 (-1) greedyExample
    ∧ loadTruck greedyExample (-1) = some (drain greedyExample (-1))
    ∧ (drain greedyExample (-1)).2 = []
    ∧ ¬ Map.total (drain greedyExample (-1)).2 ≤ -1 := by
  refine ⟨greedyExample_reach, by rfl, by rfl, by decide⟩

/-- C5, amended. Drain respects pull capacity: for every buffer state and every
requested pull capacity `≥ 0`, the units in the allocation returned by a single
`loadTruck` call sum to at most the requested pull capacity. -/
theorem drain_respects_pull_capacity (w w' : Warehouse) (capacity : Int) (alloc : Map)
    (hkeys : (Map.keys w.storage_).Nodup) (hcap : 0 ≤ capacity)
    (hrun : loadTruck w capacity = some (w', alloc)) :
    Map.total alloc ≤ capacity := by
  rcases loadTruck_cases w w' capacity alloc hrun with h | h
  · rw [h.2.2]
    simpa [Map.total] using hcap
  · have ha : alloc = (drain w capacity).2 := congrArg Prod.snd h.2.2
    rw [ha, drain_total_alloc w capacity hkeys]
    exact loadLoop_loaded_le capacity _ _ (by simpa [loadStart] using hcap)

/-- C5 amended, on the example: capacity 120 against 160 stored units. -/
theorem drain_respects_pull_capacity_witness :
    Map.total (drain greedyExample 120).2 ≤ 120 :=
  drain_respects_pull_capacity greedyExample _ 120 _ (by decide) (by decide) (by rfl)


/-! ## The truck counter and the finished flag -/

/-- The finished flag mirrors the truck counter, and a positive limit bounds it. -/
theorem Reach.finished_iff {ok : Product → Prop} {C K : Int} (w : Warehouse)
    (hw : Reach ok C K w) :
    (w.is_finished_ = true ↔ 0 < K ∧ K ≤ w.trucks_loaded_)
    ∧ (0 < K → w.trucks_loaded_ ≤ K) ∧ w.max_trucks_ = K := by
  refine Reach.invariant (fun w => (w.is_finished_ = true ↔ 0 < K ∧ K ≤ w.trucks_loaded_)
    ∧ (0 < K → w.trucks_loaded_ ≤ K) ∧ w.max_trucks_ = K) ?_ ?_ ?_ w hw
  · refine ⟨?_, ?_, rfl⟩
    · simp only [Warehouse.mk0]
      constructor
      · intro h; cases h
      · intro h; omega
    · intro h; simp only [Warehouse.mk0]; omega
  · intro w p h _
    exact h
  · intro w capacity h hfin
    obtain ⟨h1, h2, h3⟩ := h
    have hnot : ¬ (0 < K ∧ K ≤ w.trucks_loaded_) := by
      intro hc
      have := h1.2 hc
      rw [hfin] at this
      cases this
    refine ⟨?_, ?_, h3⟩
    · simp only [drain, h3, hfin]
      by_cases hc : K > 0 ∧ w.trucks_loaded_ + 1 ≥ K
      · rw [if_pos hc]
        exact ⟨fun _ => ⟨hc.1, hc.2⟩, fun _ => rfl⟩
      · rw [if_neg hc]
        exact ⟨fun h => Bool.noConfusion h, fun h => absurd ⟨h.1, h.2⟩ hc⟩
    · intro hK
      simp only [drain]
      have := h2 hK
      omega

/-- C7. Drain limit is never exceeded: for a warehouse constructed with a limit
`K > 0`, every reachable state has `trucks_loaded_ ≤ K`, and in every reachable state
with `trucks_loaded_ = K` each `loadTruck` call returns the empty allocation and
leaves the state, hence the counter, as it is. -/
theorem drain_limit_never_exceeded (C K : Int) (hK : 0 < K) (w : Warehouse)
    (hw : Reach anyBatch C K w) :
    w.trucks_loaded_ ≤ K
    ∧ (w.trucks_loaded_ = K → ∀ capacity, loadTruck w capacity = some (w, [])) := by
  obtain ⟨h1, h2, -⟩ := Reach.finished_iff w hw
  refine ⟨h2 hK, ?_⟩
  intro hk capacity
  have hfin : w.is_finished_ = true := h1.2 ⟨hK, by omega⟩
  simp [loadTruck, hfin]

/-- C7 on the concrete run with limit 1: after the first truck the counter is 1, and
a further `loadTruck(50)` returns the empty allocation. -/
theorem drain_limit_never_exceeded_witness :
    afterDrain.trucks_loaded_ ≤ 1 ∧ loadTruck afterDrain 50 = some (afterDrain, []) :=
  ⟨(drain_limit_never_exceeded 100 1 (by decide) afterDrain
      (afterDrain_reach anyBatch trivial)).1,
   (drain_limit_never_exceeded 100 1 (by decide) afterDrain
      (afterDrain_reach anyBatch trivial)).2 rfl 50⟩

/-- C8. Finished flag characterisation: in every state reachable from a freshly
constructed warehouse, `is_finished_` is true if and only if `max_trucks_ > 0` and
`trucks_loaded_ ≥ max_trucks_`; with a limit of `-1`, `0` or any other non-positive
value the flag is never true. -/
theorem finished_flag_characterisation (C K : Int) (w : Warehouse)
    (hw : Reach anyBatch C K w) :
    w.max_trucks_ = K
    ∧ (w.is_finished_ = true ↔ 0 < w.max_trucks_ ∧ w.max_trucks_ ≤ w.trucks_loaded_)
    ∧ (K ≤ 0 → w.is_finished_ = false) := by
  obtain ⟨h1, -, h3⟩ := Reach.finished_iff w hw
  refine ⟨h3, by rw [h3]; exact h1, ?_⟩
  intro hK
  cases hf : w.is_finished_ with
  | false => rfl
  | true => exact absurd (h1.1 hf).1 (by omega)

/-- C8 on the concrete run: with limit 1 the flag is false before the first truck
and true after it. -/
theorem finished_flag_characterisation_witness :
    (afterStore.is_finished_ = true
      ↔ 0 < afterStore.max_trucks_ ∧ afterStore.max_trucks_ ≤ afterStore.trucks_loaded_)
    ∧ (afterDrain.is_finished_ = true
      ↔ 0 < afterDrain.max_trucks_ ∧ afterDrain.max_trucks_ ≤ afterDrain.trucks_loaded_) :=
  ⟨(finished_flag_characterisation 100 1 afterStore (afterStore_reach anyBatch trivial)).2.1,
   (finished_flag_characterisation 100 1 afterDrain (afterDrain_reach anyBatch trivial)).2.1⟩


/-! ## Signs -/

theorem Map.get_nonneg (m : Map) (h : NonNeg m) (k : String) : 0 ≤ Map.get m k := by
  by_cases hk : k ∈ Map.keys m
  · exact h _ (Map.mem_of_mem_keys m k hk)
  · rw [Map.get_eq_zero_of_not_mem m k hk]

theorem Map.nonneg_upd (m : Map) (k : String) (f : Int → Int) (h : NonNeg m)
    (hf : 0 ≤ f (Map.get m k)) : NonNeg (Map.upd m k f) := by
  intro p hp
  rcases Map.mem_upd m k f p hp with hp | hp
  · exact h p hp
  · rw [hp]; exact hf

/-- With non-negative quantities a drain allocates to every bucket between nothing
and what the bucket holds. -/
theorem drain_alloc_bounds (w : Warehouse) (capacity : Int)
    (hn : (Map.keys w.storage_).Nodup) (hpos : NonNeg w.storage_) (k : String) :
    0 ≤ Map.get (drain w capacity).2 k
    ∧ Map.get (drain w capacity).2 k ≤ Map.get w.storage_ k := by
  by_cases hk : k ∈ Map.keys w.storage_
  · have hmem := Map.mem_of_mem_keys _ _ hk
    have h := loadLoop_truck_bounds capacity (sortItems w.storage_) (loadStart w)
      (sortItems_nodup_keys _ hn) (loadStart_zero w _)
      (fun p hp => hpos p ((mem_sortItems _ p).1 hp)) k (Map.get w.storage_ k)
      ((mem_sortItems _ _).2 hmem)
    simpa [drain] using h
  · have h := (loadLoop_frame capacity (sortItems w.storage_) (loadStart w) k
      (fun hc => hk ((mem_keys_sortItems _ _).1 hc))).2.2
    have h0 : Map.get (drain w capacity).2 k = 0 := by
      simpa [drain, loadStart, Map.get] using h
    rw [h0, Map.get_eq_zero_of_not_mem _ _ hk]
    exact ⟨le_refl 0, le_refl 0⟩

theorem drain_nonneg (w : Warehouse) (capacity : Int)
    (hn : (Map.keys w.storage_).Nodup) (hnc : (Map.keys w.cumulative_load_).Nodup)
    (hpos : NonNeg w.storage_) (hposc : NonNeg w.cumulative_load_) :
    NonNeg (drain w capacity).1.storage_ ∧ NonNeg (drain w capacity).1.cumulative_load_ := by
  constructor
  · intro p hp
    obtain ⟨k, v⟩ := p
    have hnd' : (Map.keys (drain w capacity).1.storage_).Nodup := by
      rw [drain_keys_storage]; exact hn
    have hv := Map.get_of_mem _ _ _ hnd' hp
    have hd := (drain_delta w capacity hn k).1
    have hb := drain_alloc_bounds w capacity hn hpos k
    show 0 ≤ v
    omega
  · intro p hp
    obtain ⟨k, v⟩ := p
    have hnd' : (Map.keys (drain w capacity).1.cumulative_load_).Nodup :=
      (loadLoop_nodup capacity (sortItems w.storage_) (loadStart w) hnc
        (by simp [loadStart, Map.keys])).1
    have hv := Map.get_of_mem _ _ _ hnd' hp
    have hd := (drain_delta w capacity hn k).2
    have hb := drain_alloc_bounds w capacity hn hpos k
    have hc := Map.get_nonneg _ hposc k
    show 0 ≤ v
    omega

/-- Deposits of non-negative batches and drains keep every stored and every
cumulative quantity non-negative. -/
theorem Reach.nonneg {C K : Int} (w : Warehouse) (hw : Reach nonnegBatch C K w) :
    NonNeg w.storage_ ∧ NonNeg w.cumulative_load_ := by
  have key : ((Map.keys w.storage_).Nodup ∧ (Map.keys w.cumulative_load_).Nodup)
      ∧ NonNeg w.storage_ ∧ NonNeg w.cumulative_load_ := by
    refine Reach.invariant (fun w => ((Map.keys w.storage_).Nodup
      ∧ (Map.keys w.cumulative_load_).Nodup)
      ∧ NonNeg w.storage_ ∧ NonNeg w.cumulative_load_) ?_ ?_ ?_ w hw
    · refine ⟨by simp [Warehouse.mk0, Map.keys], ?_, ?_⟩ <;>
        (intro p hp; simp [Warehouse.mk0] at hp)
    · intro w p h hp
      refine ⟨⟨Map.nodup_keys_upd _ _ _ h.1.1, h.1.2⟩, ?_, h.2.2⟩
      apply Map.nonneg_upd _ _ _ h.2.1
      have := Map.get_nonneg _ h.2.1 p.name
      have hq : 0 ≤ p.quantity := hp
      omega
    · intro w capacity h _
      refine ⟨⟨?_, ?_⟩, drain_nonneg w capacity h.1.1 h.1.2 h.2.1 h.2.2⟩
      · rw [drain_keys_storage]; exact h.1.1
      · exact (loadLoop_nodup capacity (sortItems w.storage_) (loadStart w) h.1.2
          (by simp [loadStart, Map.keys])).1
  exact key.2

/-- C9. No negative state: in every state reachable from a freshly constructed
warehouse by deposits of batches with quantity `≥ 0` and drains of any pull capacity,
every bucket quantity in `storage_`, `current_capacity_`, and every value in
`cumulative_load_` is `≥ 0`. -/
theorem no_negative_state (C K : Int) (w : Warehouse) (hw : Reach nonnegBatch C K w) :
    (∀ p ∈ w.storage_, 0 ≤ p.2) ∧ 0 ≤ w.current_capacity_
    ∧ (∀ p ∈ w.cumulative_load_, 0 ≤ p.2) := by
  obtain ⟨h1, h2⟩ := Reach.nonneg w hw
  refine ⟨h1, ?_, h2⟩
  rw [← Reach.total_eq w hw]
  simp only [Map.total]
  apply List.sum_nonneg
  intro x hx
  obtain ⟨p, hp, rfl⟩ := List.mem_map.1 hx
  exact h1 p hp

/-- C9 on the concrete run: after the deposit of 95 and the drain of 50 nothing is
negative. -/
theorem no_negative_state_witness :
    (∀ p ∈ afterDrain.storage_, 0 ≤ p.2) ∧ 0 ≤ afterDrain.current_capacity_
    ∧ (∀ p ∈ afterDrain.cumulative_load_, 0 ≤ p.2) :=
  no_negative_state 100 1 afterDrain (afterDrain_reach nonnegBatch (by decide))

/-- C10. Cumulative monotonicity: from every state reachable by deposits of batches
with quantity `≥ 0` and drains, every single operation (a `storeProduct` call, the
resumption of a suspended one, or a `loadTruck` call) leaves each
`cumulative_load_[bucket]` at least as large as before, and `trucks_loaded_` at least
as large as before. -/
theorem cumulative_monotonicity (C K : Int) (w : Warehouse) (hw : Reach nonnegBatch C K w) :
    (∀ p w', storeProduct w p = some w' →
      (∀ b, Map.get w.cumulative_load_ b ≤ Map.get w'.cumulative_load_ b)
      ∧ w.trucks_loaded_ ≤ w'.trucks_loaded_)
    ∧ (∀ p w', storeProductWoken w p = some w' →
      (∀ b, Map.get w.cumulative_load_ b ≤ Map.get w'.cumulative_load_ b)
      ∧ w.trucks_loaded_ ≤ w'.trucks_loaded_)
    ∧ (∀ capacity w' alloc, loadTruck w capacity = some (w', alloc) →
      (∀ b, Map.get w.cumulative_load_ b ≤ Map.get w'.cumulative_load_ b)
      ∧ w.trucks_loaded_ ≤ w'.trucks_loaded_) := by
  have hadd : ∀ p w', (w' = w ∨ w' = addProduct w p) →
      (∀ b, Map.get w.cumulative_load_ b ≤ Map.get w'.cumulative_load_ b)
      ∧ w.trucks_loaded_ ≤ w'.trucks_loaded_ := by
    intro p w' h
    rcases h with h | h <;> rw [h]
    · exact ⟨fun _ => le_refl _, le_refl _⟩
    · exact ⟨fun _ => le_refl _, le_refl _⟩
  refine ⟨fun p w' h => hadd p w' (storeProduct_cases w w' p h), ?_, ?_⟩
  · intro p w' h
    apply hadd p w'
    rcases storeProductWoken_cases w w' p h with h | h
    · exact Or.inl h.2
    · exact Or.inr h.2
  · intro capacity w' alloc h
    rcases loadTruck_cases w w' capacity alloc h with h | h
    · rw [h.2.1]
      exact ⟨fun _ => le_refl _, le_refl _⟩
    · have hw' : w' = (drain w capacity).1 := congrArg Prod.fst h.2.2
      rw [hw']
      refine ⟨?_, ?_⟩
      · intro b
        have hd := (drain_delta w capacity (Reach.nodup w hw).1 b).2
        have hb := drain_alloc_bounds w capacity (Reach.nodup w hw).1 (Reach.nonneg w hw).1 b
        omega
      · simp only [drain]
        omega

/-- C10 on the concrete run: the drain of 50 from the state after the deposit raises
`cumulative_load_["a"]` from 0 to 50 and the truck counter from 0 to 1. -/
theorem cumulative_monotonicity_witness :
    (Map.get afterStore.cumulative_load_ "a" ≤ Map.get afterDrain.cumulative_load_ "a")
    ∧ afterStore.trucks_loaded_ ≤ afterDrain.trucks_loaded_ :=
  ⟨((cumulative_monotonicity 100 1 afterStore
      (afterStore_reach nonnegBatch (by decide))).2.2 50 afterDrain [("a", 50)]
      (by rfl)).1 "a",
   ((cumulative_monotonicity 100 1 afterStore
      (afterStore_reach nonnegBatch (by decide))).2.2 50 afterDrain [("a", 50)]
      (by rfl)).2⟩


/-! ## The binary64 threshold against exact arithmetic -/

theorem bitLenAux_le (fuel n k : Nat) (h : n < 2 ^ k) : bitLenAux fuel n ≤ k := by
  induction fuel generalizing n k with
  | zero => simp [bitLenAux]
  | succ fuel ih =>
    unfold bitLenAux
    by_cases hn : n = 0
    · simp [hn]
    · simp only [hn, if_false]
      cases k with
      | zero => simp at h; exact absurd h hn
      | succ k =>
        have h2 : n / 2 < 2 ^ k := by
          apply Nat.div_lt_of_lt_mul
          rw [pow_succ] at h
          omega
        have := ih (n / 2) k h2
        omega

theorem dropBits_le (n : Nat) (h : n < 2 ^ 84) : dropBits n ≤ 31 := by
  have := bitLenAux_le n n 84 h
  unfold dropBits bitLen
  omega

/-- Rounding moves a number by less than one unit in the last place. -/
theorem round53_near (n : Nat) :
    n < round53 n + 2 ^ dropBits n ∧ round53 n ≤ n + 2 ^ dropBits n := by
  have hX : 0 < 2 ^ dropBits n := Nat.two_pow_pos _
  have hdm := Nat.div_add_mod n (2 ^ dropBits n)
  have hr := Nat.mod_lt n hX
  have hmul : (n / 2 ^ dropBits n + 1) * 2 ^ dropBits n
      = 2 ^ dropBits n * (n / 2 ^ dropBits n) + 2 ^ dropBits n := by ring
  have hmul' : n / 2 ^ dropBits n * 2 ^ dropBits n
      = 2 ^ dropBits n * (n / 2 ^ dropBits n) := by ring
  unfold round53
  simp only []
  split_ifs
  · rw [hmul]; omega
  · rw [hmul']; omega

theorem threshold_arith (a : Nat) (ha : a ≤ 2 ^ 31) :
    a * mant095 < 2 ^ 84 := by
  unfold mant095
  norm_num at ha ⊢
  omega

/-- For a 32 bit `max_capacity_`, the test `current_capacity_ >= max_capacity_ * 0.95`
of the code implies the inequality in exact arithmetic. -/
theorem atLeast095_exact (w : Warehouse) (hlo : -2 ^ 31 ≤ w.max_capacity_)
    (hhi : w.max_capacity_ < 2 ^ 31) (h : atLeast095 w = true) :
    19 * w.max_capacity_ ≤ 20 * w.current_capacity_ := by
  unfold atLeast095 times095 at h
  simp only [decide_eq_true_eq] at h
  have hn : w.max_capacity_.natAbs * mant095 < 2 ^ 84 := by
    apply threshold_arith
    clear h
    norm_num at hlo hhi ⊢
    omega
  have hs := dropBits_le _ hn
  have hpow : 2 ^ dropBits (w.max_capacity_.natAbs * mant095) ≤ 2 ^ 31 :=
    Nat.pow_le_pow_right (by decide) hs
  obtain ⟨h1, h2⟩ := round53_near (w.max_capacity_.natAbs * mant095)
  generalize round53 (w.max_capacity_.natAbs * mant095) = R at h h1 h2
  generalize 2 ^ dropBits (w.max_capacity_.natAbs * mant095) = X at hpow h1 h2
  unfold mant095 at h1 h2
  rcases lt_trichotomy w.max_capacity_ 0 with hneg | hzero | hpos
  · rw [Int.sign_eq_neg_one_of_neg hneg] at h
    norm_num at hlo hhi hpow h ⊢
    omega
  · rw [hzero] at h ⊢
    simp only [Int.sign_zero, zero_mul] at h
    omega
  · rw [Int.sign_eq_one_of_pos hpos] at h
    norm_num at hlo hhi hpow h ⊢
    omega


/-- For a 32 bit `max_capacity_`, the test `current_capacity_ <= max_capacity_ * 0.95`
of the code implies the inequality in exact arithmetic. -/
theorem atMost095_exact (w : Warehouse) (hlo : -2 ^ 31 ≤ w.max_capacity_)
    (hhi : w.max_capacity_ < 2 ^ 31) (h : atMost095 w = true) :
    20 * w.current_capacity_ ≤ 19 * w.max_capacity_ := by
  unfold atMost095 times095 at h
  simp only [decide_eq_true_eq] at h
  have hn : w.max_capacity_.natAbs * mant095 < 2 ^ 84 := by
    apply threshold_arith
    clear h
    norm_num at hlo hhi ⊢
    omega
  have hs := dropBits_le _ hn
  have hpow : 2 ^ dropBits (w.max_capacity_.natAbs * mant095) ≤ 2 ^ 31 :=
    Nat.pow_le_pow_right (by decide) hs
  obtain ⟨h1, h2⟩ := round53_near (w.max_capacity_.natAbs * mant095)
  generalize round53 (w.max_capacity_.natAbs * mant095) = R at h h1 h2
  generalize 2 ^ dropBits (w.max_capacity_.natAbs * mant095) = X at hpow h1 h2
  unfold mant095 at h1 h2
  rcases lt_trichotomy w.max_capacity_ 0 with hneg | hzero | hpos
  · rw [Int.sign_eq_neg_one_of_neg hneg] at h
    norm_num at hlo hhi hpow h ⊢
    omega
  · rw [hzero] at h ⊢
    simp only [Int.sign_zero, zero_mul] at h
    omega
  · rw [Int.sign_eq_one_of_pos hpos] at h
    norm_num at hlo hhi hpow h ⊢
    omega

theorem lt_two_pow_bitLenAux (fuel n : Nat) (h : n ≤ fuel) : n < 2 ^ bitLenAux fuel n := by
  induction fuel generalizing n with
  | zero =>
    have : n = 0 := by omega
    simp [bitLenAux, this]
  | succ fuel ih =>
    unfold bitLenAux
    by_cases hn : n = 0
    · simp [hn]
    · simp only [hn, if_false]
      have h2 := ih (n / 2) (by omega)
      rw [pow_succ]
      omega

theorem lt_two_pow_bitLen (n : Nat) : n < 2 ^ bitLen n :=
  lt_two_pow_bitLenAux n n (le_refl n)

/-- The unit in the last place of a number of at least 53 bits exceeds the number
divided by `2^53`. -/
theorem lt_ulp_mul (n : Nat) (h : 2 ^ 52 ≤ n) : n < 2 ^ dropBits n * 2 ^ 53 := by
  have h1 := lt_two_pow_bitLen n
  have h53 : 53 ≤ bitLen n := by
    by_contra hc
    have : bitLen n ≤ 52 := by omega
    have := Nat.pow_le_pow_right (show 0 < 2 by decide) this
    omega
  unfold dropBits
  rw [← pow_add, Nat.sub_add_cancel h53]
  exact h1

theorem round53_le_of_dvd (n K : Nat) (hd : 2 ^ dropBits n ∣ K) (h : n ≤ K) :
    round53 n ≤ K := by
  obtain ⟨k, rfl⟩ := hd
  have hX : 0 < 2 ^ dropBits n := Nat.two_pow_pos _
  have hdm := Nat.div_add_mod n (2 ^ dropBits n)
  have hr := Nat.mod_lt n hX
  unfold round53
  simp only []
  by_cases h0 : n % 2 ^ dropBits n = 0
  · have hX2 : ¬ (0 = 2 ^ dropBits n) := by omega
    simp only [h0, Nat.mul_zero, Nat.not_lt_zero, hX2, false_and, or_self, if_false]
    rw [Nat.mul_comm]
    omega
  · have hlt : 2 ^ dropBits n * (n / 2 ^ dropBits n) < 2 ^ dropBits n * k := by omega
    have hq : n / 2 ^ dropBits n + 1 ≤ k := Nat.lt_of_mul_lt_mul_left hlt
    have hle : (n / 2 ^ dropBits n + 1) * 2 ^ dropBits n ≤ 2 ^ dropBits n * k := by
      rw [Nat.mul_comm]
      exact Nat.mul_le_mul_left _ hq
    have hle' : n / 2 ^ dropBits n * 2 ^ dropBits n ≤ 2 ^ dropBits n * k := by
      rw [Nat.mul_comm]
      omega
    split_ifs
    · exact hle
    · exact hle'

theorem le_round53_of_dvd (n K : Nat) (hd : 2 ^ dropBits n ∣ K) (h : K ≤ n) :
    K ≤ round53 n := by
  obtain ⟨k, rfl⟩ := hd
  have hX : 0 < 2 ^ dropBits n := Nat.two_pow_pos _
  have hq : k ≤ n / 2 ^ dropBits n := by
    rw [Nat.le_div_iff_mul_le hX, Nat.mul_comm]
    exact h
  have hle : 2 ^ dropBits n * k ≤ n / 2 ^ dropBits n * 2 ^ dropBits n := by
    rw [Nat.mul_comm]
    exact Nat.mul_le_mul_right _ hq
  have hle' : 2 ^ dropBits n * k ≤ (n / 2 ^ dropBits n + 1) * 2 ^ dropBits n := by
    rw [Nat.add_mul]
    omega
  unfold round53
  simp only []
  split_ifs
  · exact hle'
  · exact hle

/-- A number that lies less than half a unit in the last place below a representable
one is rounded up to it. -/
theorem round53_eq_of_near (n K : Nat) (hd : 2 ^ dropBits n ∣ K) (h : n ≤ K)
    (hnear : 2 * (K - n) < 2 ^ dropBits n) : round53 n = K := by
  apply le_antisymm (round53_le_of_dvd n K hd h)
  obtain ⟨k, rfl⟩ := hd
  have hX : 0 < 2 ^ dropBits n := Nat.two_pow_pos _
  have hdm := Nat.div_add_mod n (2 ^ dropBits n)
  have hr := Nat.mod_lt n hX
  by_cases h0 : n = 2 ^ dropBits n * k
  · exact le_round53_of_dvd n _ ⟨k, rfl⟩ (by omega)
  · have hlt : 2 ^ dropBits n * (n / 2 ^ dropBits n) < 2 ^ dropBits n * k := by omega
    have hq : n / 2 ^ dropBits n + 1 ≤ k := Nat.lt_of_mul_lt_mul_left hlt
    have hk : k ≤ n / 2 ^ dropBits n + 1 := by
      by_contra hc
      have h2 : n / 2 ^ dropBits n + 2 ≤ k := by omega
      have := Nat.mul_le_mul_left (2 ^ dropBits n) h2
      rw [Nat.mul_add] at this
      omega
    have hkq : k = n / 2 ^ dropBits n + 1 := by omega
    have hmul : 2 ^ dropBits n * k
        = 2 ^ dropBits n * (n / 2 ^ dropBits n) + 2 ^ dropBits n := by
      rw [hkq, Nat.mul_add, Nat.mul_one]
    have hup : 2 ^ dropBits n < 2 * (n % 2 ^ dropBits n) := by omega
    unfold round53
    simp only [hup, true_or, if_true]
    rw [hmul, Nat.add_mul, Nat.one_mul, Nat.mul_comm]

theorem ulp_dvd (a k : Nat) (ha : a ≤ 2 ^ 31) :
    2 ^ dropBits (a * mant095) ∣ k * 2 ^ 53 := by
  have hs := dropBits_le _ (threshold_arith a ha)
  exact Dvd.dvd.mul_left (pow_dvd_pow 2 (by omega)) k

theorem round53_le_threshold (a k : Nat) (ha : a ≤ 2 ^ 31) (h : 19 * a ≤ 20 * k) :
    round53 (a * mant095) ≤ k * 2 ^ 53 := by
  apply round53_le_of_dvd _ _ (ulp_dvd a k ha)
  unfold mant095
  norm_num
  omega

theorem threshold_le_round53 (a k : Nat) (ha : a ≤ 2 ^ 31) (h : 20 * k ≤ 19 * a) :
    k * 2 ^ 53 ≤ round53 (a * mant095) := by
  by_cases heq : 20 * k = 19 * a
  · by_cases ha0 : a = 0
    · have : k = 0 := by omega
      simp [this]
    · have hbig : 2 ^ 52 ≤ a * mant095 := by
        unfold mant095
        norm_num
        omega
      have hulp := lt_ulp_mul _ hbig
      have hle : a * mant095 ≤ k * 2 ^ 53 := by
        unfold mant095
        norm_num
        omega
      have hnear : 2 * (k * 2 ^ 53 - a * mant095) < 2 ^ dropBits (a * mant095) := by
        generalize 2 ^ dropBits (a * mant095) = X at hulp ⊢
        unfold mant095 at hulp ⊢
        norm_num at hulp ⊢
        omega
      exact le_of_eq (round53_eq_of_near _ _ (ulp_dvd a k ha) hle hnear).symm
  · apply le_round53_of_dvd _ _ (ulp_dvd a k ha)
    unfold mant095
    norm_num at ha ⊢
    omega

/-- For a 32 bit `max_capacity_`, the binary64 test of lines 86 and 94 decides exactly
`current_capacity_ ≥ 0.95 × max_capacity_`. -/
theorem atLeast095_iff (w : Warehouse) (hlo : -2 ^ 31 ≤ w.max_capacity_)
    (hhi : w.max_capacity_ < 2 ^ 31) :
    atLeast095 w = true ↔ 19 * w.max_capacity_ ≤ 20 * w.current_capacity_ := by
  refine ⟨atLeast095_exact w hlo hhi, ?_⟩
  intro h
  unfold atLeast095 times095
  simp only [decide_eq_true_eq]
  have ha : w.max_capacity_.natAbs ≤ 2 ^ 31 := by
    norm_num at hlo hhi ⊢
    omega
  rcases lt_trichotomy w.max_capacity_ 0 with hneg | hzero | hpos
  · rw [Int.sign_eq_neg_one_of_neg hneg]
    have hB := threshold_le_round53 w.max_capacity_.natAbs (-w.current_capacity_).toNat ha
      (by omega)
    have hB' : (((-w.current_capacity_).toNat * 2 ^ 53 : Nat) : Int)
        ≤ (round53 (w.max_capacity_.natAbs * mant095) : Int) := by exact_mod_cast hB
    generalize round53 (w.max_capacity_.natAbs * mant095) = R at hB'
    push_cast at hB'
    norm_num at hB' ⊢
    omega
  · rw [hzero]
    simp only [Int.sign_zero, zero_mul]
    rw [hzero] at h
    norm_num
    omega
  · rw [Int.sign_eq_one_of_pos hpos]
    have hA := round53_le_threshold w.max_capacity_.natAbs w.current_capacity_.toNat ha
      (by omega)
    have hA' : (round53 (w.max_capacity_.natAbs * mant095) : Int)
        ≤ ((w.current_capacity_.toNat * 2 ^ 53 : Nat) : Int) := by exact_mod_cast hA
    generalize round53 (w.max_capacity_.natAbs * mant095) = R at hA'
    push_cast at hA'
    norm_num at hA' ⊢
    omega

/-- For a 32 bit `max_capacity_`, the binary64 test of line 76 decides exactly
`current_capacity_ ≤ 0.95 × max_capacity_`. -/
theorem atMost095_iff (w : Warehouse) (hlo : -2 ^ 31 ≤ w.max_capacity_)
    (hhi : w.max_capacity_ < 2 ^ 31) :
    atMost095 w = true ↔ 20 * w.current_capacity_ ≤ 19 * w.max_capacity_ := by
  refine ⟨atMost095_exact w hlo hhi, ?_⟩
  intro h
  unfold atMost095 times095
  simp only [decide_eq_true_eq]
  have ha : w.max_capacity_.natAbs ≤ 2 ^ 31 := by
    norm_num at hlo hhi ⊢
    omega
  rcases lt_trichotomy w.max_capacity_ 0 with hneg | hzero | hpos
  · rw [Int.sign_eq_neg_one_of_neg hneg]
    have hA := round53_le_threshold w.max_capacity_.natAbs (-w.current_capacity_).toNat ha
      (by omega)
    have hA' : (round53 (w.max_capacity_.natAbs * mant095) : Int)
        ≤ (((-w.current_capacity_).toNat * 2 ^ 53 : Nat) : Int) := by exact_mod_cast hA
    generalize round53 (w.max_capacity_.natAbs * mant095) = R at hA'
    push_cast at hA'
    norm_num at hA' ⊢
    omega
  · rw [hzero]
    simp only [Int.sign_zero, zero_mul]
    rw [hzero] at h
    norm_num
    omega
  · rw [Int.sign_eq_one_of_pos hpos]
    have hB := threshold_le_round53 w.max_capacity_.natAbs w.current_capacity_.toNat ha
      (by omega)
    have hB' : ((w.current_capacity_.toNat * 2 ^ 53 : Nat) : Int)
        ≤ (round53 (w.max_capacity_.natAbs * mant095) : Int) := by exact_mod_cast hB
    generalize round53 (w.max_capacity_.natAbs * mant095) = R at hB'
    push_cast at hB'
    norm_num at hB' ⊢
    omega

/-- C6. Threshold correctness: `loadTruck` returns a non-empty allocation or changes
the buffer state only if, in the state it runs in after the wait of line 94,
`current_capacity_ >= max_capacity_ * 0.95` held as the code evaluates it and
`is_finished_` was false; for a 32 bit `max_capacity_` that test means
`current_capacity_ ≥ 0.95 × max_capacity_` in exact arithmetic. When `is_finished_`
is true the call returns the empty allocation and changes nothing. -/
theorem threshold_correctness (w : Warehouse) (capacity : Int) :
    (∀ w' alloc, loadTruck w capacity = some (w', alloc) → (alloc ≠ [] ∨ w' ≠ w) →
      atLeast095 w = true ∧ w.is_finished_ = false
      ∧ (-2 ^ 31 ≤ w.max_capacity_ → w.max_capacity_ < 2 ^ 31 →
          19 * w.max_capacity_ ≤ 20 * w.current_capacity_))
    ∧ (w.is_finished_ = true → loadTruck w capacity = some (w, [])) := by
  constructor
  · intro w' alloc hrun hch
    rcases loadTruck_cases w w' capacity alloc hrun with h | h
    · rcases hch with hch | hch
      · exact absurd h.2.2 hch
      · exact absurd h.2.1 hch
    · exact ⟨h.2.1, h.1, fun hlo hhi => atLeast095_exact w hlo hhi h.2.1⟩
  · intro hfin
    simp [loadTruck, hfin]

/-- C6 on the concrete run: the drain of 50 proceeded from a state holding 95 of
capacity 100, at the threshold and not finished; in the finished state after it
`loadTruck` returns the empty allocation and the same state. -/
theorem threshold_correctness_witness :
    (atLeast095 afterStore = true ∧ afterStore.is_finished_ = false
      ∧ 19 * afterStore.max_capacity_ ≤ 20 * afterStore.current_capacity_)
    ∧ loadTruck afterDrain 50 = some (afterDrain, []) :=
  ⟨⟨((threshold_correctness afterStore 50).1 afterDrain [("a", 50)] (by rfl)
        (Or.inl (by decide))).1,
    ((threshold_correctness afterStore 50).1 afterDrain [("a", 50)] (by rfl)
        (Or.inl (by decide))).2.1,
    ((threshold_correctness afterStore 50).1 afterDrain [("a", 50)] (by rfl)
        (Or.inl (by decide))).2.2 (by decide) (by decide)⟩,
   (threshold_correctness afterDrain 50).2 rfl⟩


/-! ## Postconditions of the two operations -/

/-- The drain lowers `current_capacity_` by the total of the allocation. -/
theorem drain_current (w : Warehouse) (capacity : Int) (hn : (Map.keys w.storage_).Nodup) :
    (drain w capacity).1.current_capacity_
      = w.current_capacity_ - Map.total (drain w capacity).2 := by
  have h := (loadLoop_conserve capacity (sortItems w.storage_) (loadStart w)).2
  rw [drain_total_alloc w capacity hn]
  simp only [loadStart] at h
  simp only [drain, loadStart]
  omega

/-- C11. Drain postcondition: for every drain that proceeds, with `a b` the amount
allocated to bucket `b` (`0` if `b` is not in the returned allocation), `storage_[b]`
decreases by exactly `a b` and `cumulative_load_[b]` increases by exactly `a b` for
every bucket `b`, `current_capacity_` decreases by exactly the sum of all `a b`,
`trucks_loaded_` increases by exactly 1, and `max_capacity_` and `max_trucks_` are
unchanged. -/
theorem drain_postcondition (w w' : Warehouse) (capacity : Int) (alloc : Map)
    (hkeys : (Map.keys w.storage_).Nodup) (hfin : w.is_finished_ = false)
    (hrun : loadTruck w capacity = some (w', alloc)) :
    (∀ b, Map.get w'.storage_ b = Map.get w.storage_ b - Map.get alloc b
        ∧ Map.get w'.cumulative_load_ b = Map.get w.cumulative_load_ b + Map.get alloc b)
    ∧ w'.current_capacity_ = w.current_capacity_ - Map.total alloc
    ∧ w'.trucks_loaded_ = w.trucks_loaded_ + 1
    ∧ w'.max_capacity_ = w.max_capacity_ ∧ w'.max_trucks_ = w.max_trucks_ := by
  obtain ⟨hr, -⟩ := loadTruck_proceeds w capacity (w', alloc) hfin hrun
  have hw' : w' = (drain w capacity).1 := congrArg Prod.fst hr
  have ha : alloc = (drain w capacity).2 := congrArg Prod.snd hr
  rw [hw', ha]
  exact ⟨fun b => drain_delta w capacity hkeys b, drain_current w capacity hkeys,
    rfl, rfl, rfl⟩

/-- C11 on the example `{A: 100, B: 50, C: 10}` with pull capacity 120: `B` loses 20
and ships 20, the running total falls from 160 to 40, one more truck is counted. -/
theorem drain_postcondition_witness :
    (Map.get (drain greedyExample 120).1.storage_ "B"
        = Map.get greedyExample.storage_ "B" - Map.get (drain greedyExample 120).2 "B"
      ∧ Map.get (drain greedyExample 120).1.cumulative_load_ "B"
        = Map.get greedyExample.cumulative_load_ "B" + Map.get (drain greedyExample 120).2 "B")
    ∧ (drain greedyExample 120).1.current_capacity_
        = greedyExample.current_capacity_ - Map.total (drain greedyExample 120).2
    ∧ (drain greedyExample 120).1.trucks_loaded_ = greedyExample.trucks_loaded_ + 1 :=
  ⟨(drain_postcondition greedyExample _ 120 _ (by decide) rfl (by rfl)).1 "B",
   (drain_postcondition greedyExample _ 120 _ (by decide) rfl (by rfl)).2.1,
   (drain_postcondition greedyExample _ 120 _ (by decide) rfl (by rfl)).2.2.1⟩

/-- Effect of the merge of lines 80-82 on every part of the state. -/
theorem addProduct_post (w : Warehouse) (p : Product) :
    Map.get (addProduct w p).storage_ p.name = Map.get w.storage_ p.name + p.quantity
    ∧ (addProduct w p).current_capacity_ = w.current_capacity_ + p.quantity
    ∧ (∀ b, b ≠ p.name → Map.get (addProduct w p).storage_ b = Map.get w.storage_ b)
    ∧ (addProduct w p).cumulative_load_ = w.cumulative_load_
    ∧ (addProduct w p).trucks_loaded_ = w.trucks_loaded_
    ∧ (addProduct w p).is_finished_ = w.is_finished_
    ∧ (addProduct w p).max_capacity_ = w.max_capacity_
    ∧ (addProduct w p).max_trucks_ = w.max_trucks_ :=
  ⟨Map.get_upd_same _ _ _, rfl, fun _ hb => Map.get_upd_other _ _ _ _ hb,
    rfl, rfl, rfl, rfl, rfl⟩

/-- A fresh `storeProduct` call discards the batch exactly when it detects an overflow
in a finished warehouse; in every other case in which it returns it has merged. -/
theorem storeProduct_merged (w w' : Warehouse) (p : Product)
    (hnd : ¬ (w.current_capacity_ + p.quantity > w.max_capacity_ ∧ w.is_finished_ = true))
    (h : storeProduct w p = some w') : w' = addProduct w p := by
  unfold storeProduct at h
  by_cases ho : w.current_capacity_ + p.quantity > w.max_capacity_
  · simp only [ho, if_true] at h
    rcases storeProductWoken_cases w w' p h with hc | hc
    · exact absurd ⟨ho, hc.1⟩ hnd
    · exact hc.2
  · simp only [ho, if_false, Option.some.injEq] at h
    exact h.symm

/-- C12. Deposit postcondition and frame: for every `storeProduct` call that is not
discarded (a fresh call that does not find an overflow in a finished warehouse, or a
resumed call in an unfinished warehouse), `storage_[product.name]` and
`current_capacity_` increase by exactly `product.quantity`, while every other bucket
of `storage_`, all of `cumulative_load_`, `trucks_loaded_`, `is_finished_`,
`max_capacity_` and `max_trucks_` are unchanged. -/
theorem deposit_postcondition (w w' : Warehouse) (p : Product)
    (hrun : (storeProduct w p = some w'
              ∧ ¬ (w.current_capacity_ + p.quantity > w.max_capacity_
                    ∧ w.is_finished_ = true))
            ∨ (storeProductWoken w p = some w' ∧ w.is_finished_ = false)) :
    Map.get w'.storage_ p.name = Map.get w.storage_ p.name + p.quantity
    ∧ w'.current_capacity_ = w.current_capacity_ + p.quantity
    ∧ (∀ b, b ≠ p.name → Map.get w'.storage_ b = Map.get w.storage_ b)
    ∧ w'.cumulative_load_ = w.cumulative_load_
    ∧ w'.trucks_loaded_ = w.trucks_loaded_
    ∧ w'.is_finished_ = w.is_finished_
    ∧ w'.max_capacity_ = w.max_capacity_
    ∧ w'.max_trucks_ = w.max_trucks_ := by
  have hw' : w' = addProduct w p := by
    rcases hrun with h | h
    · exact storeProduct_merged w w' p h.2 h.1
    · rcases storeProductWoken_cases w w' p h.1 with hc | hc
      · rw [h.2] at hc
        exact absurd hc.1 (by decide)
      · exact hc.2
  rw [hw']
  exact addProduct_post w p

/-- C12 on the concrete run: the deposit of 95 units of `a` into the fresh
`Warehouse(100, 1)` gives `afterStore`, with `a` and the running total at 95. -/
theorem deposit_postcondition_witness :
    Map.get afterStore.storage_ "a" = Map.get (Warehouse.mk0 100 1).storage_ "a" + 95
    ∧ afterStore.current_capacity_ = (Warehouse.mk0 100 1).current_capacity_ + 95 :=
  ⟨(deposit_postcondition (Warehouse.mk0 100 1) afterStore batchA95
      (Or.inl ⟨by rfl, by decide⟩)).1,
   (deposit_postcondition (Warehouse.mk0 100 1) afterStore batchA95
      (Or.inl ⟨by rfl, by decide⟩)).2.1⟩


/-! ## A drain that proceeds loads something -/

theorem two_pow_bitLenAux_le (fuel n : Nat) (h : n ≤ fuel) (hn : 0 < n) :
    2 ^ bitLenAux fuel n ≤ 2 * n := by
  induction fuel generalizing n with
  | zero => omega
  | succ fuel ih =>
    unfold bitLenAux
    have hn0 : ¬ n = 0 := by omega
    simp only [hn0, if_false]
    rw [pow_succ]
    by_cases h2 : n / 2 = 0
    · have hb : bitLenAux fuel (n / 2) = 0 := by
        rw [h2]
        cases fuel <;> simp [bitLenAux]
      rw [hb]
      omega
    · have := ih (n / 2) (by omega) (by omega)
      omega

/-- Rounding to 53 bits does not round a positive number to zero. -/
theorem round53_pos (n : Nat) (hn : 0 < n) : 0 < round53 n := by
  have hX : 0 < 2 ^ dropBits n := Nat.two_pow_pos _
  have hle : 2 ^ dropBits n ≤ n := by
    by_cases hb : bitLen n ≤ 53
    · have : dropBits n = 0 := by unfold dropBits; omega
      rw [this]
      simpa using hn
    · have h1 := two_pow_bitLenAux_le n n (le_refl n) hn
      have h2 : 2 ^ bitLen n = 2 ^ dropBits n * 2 ^ 53 := by
        unfold dropBits
        rw [← pow_add, Nat.sub_add_cancel (by omega)]
      unfold bitLen at h2
      rw [h2] at h1
      norm_num at h1
      omega
  have hq : 0 < n / 2 ^ dropBits n := Nat.div_pos hle hX
  have h1 : 0 < n / 2 ^ dropBits n * 2 ^ dropBits n := Nat.mul_pos hq hX
  have h2 : 0 < (n / 2 ^ dropBits n + 1) * 2 ^ dropBits n := Nat.mul_pos (by omega) hX
  unfold round53
  simp only []
  split_ifs
  · exact h2
  · exact h1

theorem times095_pos (x : Int) (hx : 0 < x) : 0 < times095 x := by
  unfold times095
  rw [Int.sign_eq_one_of_pos hx, one_mul]
  have hn : 0 < x.natAbs * mant095 := by
    apply Nat.mul_pos
    · omega
    · unfold mant095; decide
  exact_mod_cast round53_pos _ hn

/-- With non-negative quantities that sum to `current_capacity_`, the drain allocates
`min capacity current_capacity_` units in total. -/
theorem drain_total_eq_min (w : Warehouse) (capacity : Int)
    (hkeys : (Map.keys w.storage_).Nodup) (hpos : NonNeg w.storage_)
    (hsum : Map.total w.storage_ = w.current_capacity_) (hcap : 0 ≤ capacity) :
    Map.total (drain w capacity).2 = min capacity w.current_capacity_ := by
  have hposs : NonNeg (sortItems w.storage_) := fun p hp => hpos p ((mem_sortItems _ p).1 hp)
  have hld := loadLoop_loaded_eq capacity (sortItems w.storage_) (loadStart w) hposs
    (by simpa [loadStart] using hcap)
  rw [sortItems_total, hsum] at hld
  simp only [loadStart, zero_add] at hld
  rw [drain_total_alloc w capacity hkeys]
  simpa [loadStart] using hld

/-- C13. Empty allocation means finished: for a warehouse with `max_capacity_ ≥ 1`, in
every state reachable by deposits with quantity `≥ 0` and drains, and for every pull
capacity `≥ 1`, a returning `loadTruck` gives an empty allocation (the test of line
172 fires) if and only if `is_finished_` was true; a drain that proceeds returns an
allocation with at least one bucket and a strictly positive total. -/
theorem empty_allocation_means_finished (C K : Int) (hC : 1 ≤ C) (w : Warehouse)
    (hw : Reach nonnegBatch C K w) (capacity : Int) (hcap : 1 ≤ capacity)
    (w' : Warehouse) (alloc : Map) (hrun : loadTruck w capacity = some (w', alloc)) :
    (loadEmpty alloc = true ↔ w.is_finished_ = true)
    ∧ (w.is_finished_ = false → alloc ≠ [] ∧ 0 < Map.total alloc) := by
  have hproc : w.is_finished_ = false → alloc ≠ [] ∧ 0 < Map.total alloc := by
    intro hfin
    obtain ⟨hr, hthr⟩ := loadTruck_proceeds w capacity (w', alloc) hfin hrun
    have ha : alloc = (drain w capacity).2 := congrArg Prod.snd hr
    have hcur : 0 < w.current_capacity_ := by
      unfold atLeast095 at hthr
      simp only [decide_eq_true_eq] at hthr
      have hpos := times095_pos w.max_capacity_ (by rw [(Reach.params w hw).1]; omega)
      by_contra hc
      have : w.current_capacity_ * 2 ^ 53 ≤ 0 :=
        mul_nonpos_of_nonpos_of_nonneg (by omega) (by positivity)
      omega
    have htot := drain_total_eq_min w capacity (Reach.nodup w hw).1 (Reach.nonneg w hw).1
      (Reach.total_eq w hw) (by omega)
    have hpos : 0 < Map.total alloc := by
      rw [ha, htot]
      exact lt_min (by omega) hcur
    refine ⟨?_, hpos⟩
    intro he
    rw [he] at hpos
    simp [Map.total] at hpos
  refine ⟨?_, hproc⟩
  constructor
  · intro he
    cases hf : w.is_finished_ with
    | true => rfl
    | false =>
      have := (hproc hf).1
      cases alloc with
      | nil => exact absurd rfl this
      | cons a l => simp [loadEmpty] at he
  · intro hf
    rcases loadTruck_cases w w' capacity alloc hrun with h | h
    · rw [h.2.2]; rfl
    · rw [hf] at h
      exact absurd h.1 (by decide)

/-- C13 on the concrete run: the drain of 50 from `afterStore` (not finished) returns
a non-empty allocation of total 50; in the finished `afterDrain` the returned
allocation is empty. -/
theorem empty_allocation_means_finished_witness :
    ((loadEmpty [("a", 50)] = true ↔ afterStore.is_finished_ = true)
      ∧ (afterStore.is_finished_ = false →
          [("a", (50 : Int))] ≠ [] ∧ 0 < Map.total [("a", 50)]))
    ∧ ((loadEmpty [] = true ↔ afterDrain.is_finished_ = true)
      ∧ (afterDrain.is_finished_ = false → ([] : Map) ≠ [] ∧ 0 < Map.total [])) :=
  ⟨empty_allocation_means_finished 100 1 (by decide) afterStore
      (afterStore_reach nonnegBatch (by decide)) 50 (by decide) afterDrain [("a", 50)]
      (by rfl),
   empty_allocation_means_finished 100 1 (by decide) afterDrain
      (afterDrain_reach nonnegBatch (by decide)) 50 (by decide) afterDrain [] (by rfl)⟩


/-! ## Which buckets enter the allocation -/

theorem Map.mem_keys_upd (m : Map) (k j : String) (f : Int → Int)
    (h : j ∈ Map.keys (Map.upd m k f)) : j ∈ Map.keys m ∨ j = k := by
  by_cases hk : k ∈ Map.keys m
  · rw [Map.keys_upd_of_mem m k f hk] at h
    exact Or.inl h
  · rw [Map.keys_upd_of_not_mem m k f hk] at h
    simpa using h

/-- A key of `truck_load` after the loop was there before, or belongs to a bucket of
the snapshot that the loop body visited; the entry of a visited non-negative bucket
is `0` exactly when the bucket holds `0`. -/
theorem loadLoop_truck_keys (capacity : Int) (items : List (String × Int)) (st : LoadState)
    (hn : (Map.keys items).Nodup) (hpos : NonNeg items) (k : String)
    (hk : k ∈ Map.keys (loadLoop capacity items st).truck_load) :
    k ∈ Map.keys st.truck_load
    ∨ ∃ q, (k, q) ∈ items ∧ (Map.get (loadLoop capacity items st).truck_load k = 0 ↔ q = 0) := by
  induction items generalizing st with
  | nil => left; simpa [loadLoop] using hk
  | cons item rest ih =>
    by_cases h : capacity ≤ st.loaded_quantity
    · rw [loadLoop_break _ _ _ _ h] at hk
      exact Or.inl hk
    · rw [loadLoop_step capacity item rest st (by omega)] at hk ⊢
      simp only [Map.keys, List.map_cons, List.nodup_cons] at hn
      rcases ih (loadStep capacity item st) hn.2
          (fun p hp => hpos p (List.mem_cons_of_mem _ hp)) hk with h1 | ⟨q, hq, hz⟩
      · rcases Map.mem_keys_upd _ _ _ _ h1 with h2 | h2
        · exact Or.inl h2
        · right
          refine ⟨item.2, by rw [h2]; exact List.mem_cons_self _ _, ?_⟩
          rw [h2, (loadLoop_frame capacity rest (loadStep capacity item st) item.1 hn.1).2.2]
          simp only [loadStep, Map.get_upd_same]
          have hq : 0 ≤ item.2 := hpos item (List.mem_cons_self _ _)
          rcases le_total item.2 (capacity - st.loaded_quantity) with hle | hle
          · rw [min_eq_left hle]
          · rw [min_eq_right hle]
            constructor <;> intro <;> omega
      · exact Or.inr ⟨q, List.mem_cons_of_mem _ hq, hz⟩

theorem zeroBucketExample_reach : Reach nonnegBatch 100 (-1) zeroBucketExample := by
  have h1 : Reach nonnegBatch 100 (-1) (addProduct (Warehouse.mk0 100 (-1)) (batch "a" 95)) :=
    Reach.store (batch "a" 95) Reach.init (by decide) (by rfl)
  have h2 : Reach nonnegBatch 100 (-1)
      (drain (addProduct (Warehouse.mk0 100 (-1)) (batch "a" 95)) 95).1 :=
    Reach.load 95 [("a", 95)] h1 (by rfl)
  exact Reach.store (batch "b" 95) h2 (by decide) (by rfl)

/-- C14 as stated fails: in the reachable state `zeroBucketExample` bucket `a` holds
`0`, the snapshot of line 104 takes it all the same, and `loadTruck(200)` returns the
allocation `{b: 95, a: 0}`: `a` is a key of the allocation, had quantity `0` before
the drain, and its entry has amount `0`. -/
theorem allocation_zero_entry_counterexample :
    Reach nonnegBatch 100 (-1) zeroBucketExample
    ∧ Map.get zeroBucketExample.storage_ "a" = 0
    ∧ (loadTruck zeroBucketExample 200).map Prod.snd = some [("b", 95), ("a", 0)] :=
  ⟨zeroBucketExample_reach, by rfl, by rfl⟩

/-- C14, amended. Only stored buckets are drained: in every state reachable by
deposits with quantity `≥ 0` and drains, for every pull capacity, every bucket that
appears as a key in the allocation returned by `loadTruck` was a key of `storage_`
before the drain and held a quantity `≥ 0` (the snapshot holds every pair of
`storage_`, also those with quantity `0`); its allocation entry is `0` exactly when
the bucket held `0`. -/
theorem allocated_buckets_stored (C K : Int) (w : Warehouse) (hw : Reach nonnegBatch C K w)
    (capacity : Int) (w' : Warehouse) (alloc : Map)
    (hrun : loadTruck w capacity = some (w', alloc)) (b : String)
    (hb : b ∈ Map.keys alloc) :
    b ∈ Map.keys w.storage_ ∧ 0 ≤ Map.get w.storage_ b
    ∧ (Map.get alloc b = 0 ↔ Map.get w.storage_ b = 0) := by
  rcases loadTruck_cases w w' capacity alloc hrun with h | h
  · rw [h.2.2] at hb
    simp [Map.keys] at hb
  · have ha : alloc = (drain w capacity).2 := congrArg Prod.snd h.2.2
    have hnd := (Reach.nodup w hw).1
    have hpos := (Reach.nonneg w hw).1
    rw [ha] at hb ⊢
    rcases loadLoop_truck_keys capacity (sortItems w.storage_) (loadStart w)
        (sortItems_nodup_keys _ hnd) (fun p hp => hpos p ((mem_sortItems _ p).1 hp)) b
        (by simpa [drain] using hb) with h1 | ⟨q, hq, hz⟩
    · simp [loadStart, Map.keys] at h1
    · have hmem : (b, q) ∈ w.storage_ := (mem_sortItems _ _).1 hq
      have hget := Map.get_of_mem _ _ _ hnd hmem
      refine ⟨List.mem_map_of_mem Prod.fst hmem, ?_, ?_⟩
      · rw [hget]; exact hpos _ hmem
      · rw [hget]
        simpa [drain] using hz

/-- C14 amended, on the state with the emptied bucket: both keys of the allocation
`{b: 95, a: 0}` are keys of the storage; `b` held 95 and gets a non-zero entry, `a`
held `0` and gets the entry `0`. -/
theorem allocated_buckets_stored_witness :
    ("b" ∈ Map.keys zeroBucketExample.storage_ ∧ 0 ≤ Map.get zeroBucketExample.storage_ "b"
      ∧ (Map.get [("b", 95), ("a", 0)] "b" = 0 ↔ Map.get zeroBucketExample.storage_ "b" = 0))
    ∧ ("a" ∈ Map.keys zeroBucketExample.storage_ ∧ 0 ≤ Map.get zeroBucketExample.storage_ "a"
      ∧ (Map.get [("b", 95), ("a", 0)] "a" = 0 ↔ Map.get zeroBucketExample.storage_ "a" = 0)) :=
  ⟨allocated_buckets_stored 100 (-1) zeroBucketExample zeroBucketExample_reach 200
      (drain zeroBucketExample 200).1 [("b", 95), ("a", 0)] (by rfl) "b" (by decide),
   allocated_buckets_stored 100 (-1) zeroBucketExample zeroBucketExample_reach 200
      (drain zeroBucketExample 200).1 [("b", 95), ("a", 0)] (by rfl) "a" (by decide)⟩


/-! ## Capacity and the two wait predicates -/

/-- C15. Capacity can be overshot by a deposit: there are a capacity, a reachable
state with `current_capacity_ ≤ max_capacity_` that is not finished, and a batch for
which `storeProduct` completes, merges the batch, and leaves
`current_capacity_ > max_capacity_`: the fresh `Warehouse(10, -1)` and a batch of 11
units end with 11 units in a warehouse of capacity 10. -/
theorem capacity_overshoot :
    ∃ (C : Int) (w w' : Warehouse) (p : Product),
      Reach nonnegBatch C (-1) w ∧ w.max_capacity_ = C ∧ w.current_capacity_ ≤ C
      ∧ w.is_finished_ = false ∧ storeProduct w p = some w' ∧ w' = addProduct w p
      ∧ C < w'.current_capacity_ :=
  ⟨10, Warehouse.mk0 10 (-1), addProduct (Warehouse.mk0 10 (-1)) (batch "a" 11),
    batch "a" 11, Reach.init, rfl, by decide, rfl, by rfl, rfl, by decide⟩

/-- C19. Bounded overshoot: for a 32 bit `max_capacity_`, every buffer state and
every batch, a `storeProduct` call that is not discarded (a fresh call that does not
find an overflow in a finished warehouse, or a resumed call in an unfinished one)
leaves `current_capacity_ ≤ max (max_capacity_, 0.95 × max_capacity_ + quantity)`; a
fresh call that detects no overflow leaves `current_capacity_ ≤ max_capacity_`. -/
theorem bounded_overshoot (w w' : Warehouse) (p : Product)
    (hlo : -2 ^ 31 ≤ w.max_capacity_) (hhi : w.max_capacity_ < 2 ^ 31)
    (hrun : (storeProduct w p = some w'
              ∧ ¬ (w.current_capacity_ + p.quantity > w.max_capacity_
                    ∧ w.is_finished_ = true))
            ∨ (storeProductWoken w p = some w' ∧ w.is_finished_ = false)) :
    (w'.current_capacity_ : ℚ)
        ≤ max (w.max_capacity_ : ℚ) (19 / 20 * w.max_capacity_ + p.quantity)
    ∧ (storeProduct w p = some w' → w.current_capacity_ + p.quantity ≤ w.max_capacity_ →
        w'.current_capacity_ ≤ w.max_capacity_) := by
  have hwoken : storeProductWoken w p = some w' → w.is_finished_ = false →
      20 * w'.current_capacity_ ≤ 19 * w.max_capacity_ + 20 * p.quantity := by
    intro h hfin
    have hat : atMost095 w = true := by
      unfold storeProductWoken at h
      by_cases ha : atMost095 w = true
      · exact ha
      · simp [ha, hfin] at h
    have hex := atMost095_exact w hlo hhi hat
    rcases storeProductWoken_cases w w' p h with hc | hc
    · rw [hfin] at hc
      exact absurd hc.1 (by decide)
    · rw [hc.2]
      simp only [addProduct]
      omega
  have hint : w'.current_capacity_ ≤ w.max_capacity_
      ∨ 20 * w'.current_capacity_ ≤ 19 * w.max_capacity_ + 20 * p.quantity := by
    rcases hrun with h | h
    · by_cases ho : w.current_capacity_ + p.quantity > w.max_capacity_
      · right
        have hfin : w.is_finished_ = false := by
          cases hf : w.is_finished_ with
          | false => rfl
          | true => exact absurd ⟨ho, hf⟩ h.2
        have hs := h.1
        unfold storeProduct at hs
        simp only [ho, if_true] at hs
        exact hwoken hs hfin
      · left
        rw [storeProduct_merged w w' p h.2 h.1]
        simp only [addProduct]
        omega
    · exact Or.inr (hwoken h.1 h.2)
  constructor
  · rcases hint with h | h
    · exact le_max_of_le_left (by exact_mod_cast h)
    · apply le_max_of_le_right
      have hq : ((20 * w'.current_capacity_ : Int) : ℚ)
          ≤ ((19 * w.max_capacity_ + 20 * p.quantity : Int) : ℚ) := by exact_mod_cast h
      push_cast at hq
      linarith
  · intro hs hno
    have ho : ¬ (w.current_capacity_ + p.quantity > w.max_capacity_) := by omega
    unfold storeProduct at hs
    simp only [ho, if_false, Option.some.injEq] at hs
    rw [← hs]
    simp only [addProduct]
    exact hno

/-- C19 on two deposits: 95 units into the fresh `Warehouse(100, 1)` end at 95, within
the capacity; 11 units into the fresh `Warehouse(10, -1)` overflow, pass the wait and
end at `11 ≤ 0.95 × 10 + 11`. -/
theorem bounded_overshoot_witness :
    ((afterStore.current_capacity_ : ℚ)
        ≤ max ((Warehouse.mk0 100 1).max_capacity_ : ℚ)
            (19 / 20 * (Warehouse.mk0 100 1).max_capacity_ + batchA95.quantity)
      ∧ afterStore.current_capacity_ ≤ (Warehouse.mk0 100 1).max_capacity_)
    ∧ ((addProduct (Warehouse.mk0 10 (-1)) (batch "a" 11)).current_capacity_ : ℚ)
        ≤ max ((Warehouse.mk0 10 (-1)).max_capacity_ : ℚ)
            (19 / 20 * (Warehouse.mk0 10 (-1)).max_capacity_ + (batch "a" 11).quantity) :=
  ⟨⟨(bounded_overshoot (Warehouse.mk0 100 1) afterStore batchA95 (by decide) (by decide)
        (Or.inl ⟨by rfl, by decide⟩)).1,
     (bounded_overshoot (Warehouse.mk0 100 1) afterStore batchA95 (by decide) (by decide)
        (Or.inl ⟨by rfl, by decide⟩)).2 (by rfl) (by decide)⟩,
   (bounded_overshoot (Warehouse.mk0 10 (-1)) _ (batch "a" 11) (by decide) (by decide)
      (Or.inl ⟨by rfl, by decide⟩)).1⟩

/-- At least one of the two threshold tests of the code holds in every state. -/
theorem atLeast095_or_atMost095 (w : Warehouse) :
    atLeast095 w = true ∨ atMost095 w = true := by
  unfold atLeast095 atMost095
  simp only [decide_eq_true_eq]
  exact le_total _ _

/-- C20. The two blocking guards never block each other out: `loadTruck` is not
suspended exactly when `current_capacity_ >= max_capacity_ * 0.95` or `is_finished_`,
a fresh `storeProduct` is not suspended exactly when
`current_capacity_ + quantity <= max_capacity_` or
`current_capacity_ <= max_capacity_ * 0.95` or `is_finished_`, and in every state, for
every batch and pull capacity, `loadTruck` is not suspended or `storeProduct` is not,
be it a fresh call or one that was suspended before. -/
theorem guards_never_block_each_other (w : Warehouse) (p : Product) (capacity : Int) :
    (loadTruck w capacity ≠ none ↔ (atLeast095 w = true ∨ w.is_finished_ = true))
    ∧ (storeProduct w p ≠ none ↔
        (w.current_capacity_ + p.quantity ≤ w.max_capacity_ ∨ atMost095 w = true
          ∨ w.is_finished_ = true))
    ∧ (loadTruck w capacity ≠ none
        ∨ (storeProduct w p ≠ none ∧ storeProductWoken w p ≠ none)) := by
  have hload : loadTruck w capacity ≠ none ↔ (atLeast095 w = true ∨ w.is_finished_ = true) := by
    unfold loadTruck
    cases hf : w.is_finished_ <;> cases ha : atLeast095 w <;> simp
  have hwoken : storeProductWoken w p ≠ none ↔ (atMost095 w = true ∨ w.is_finished_ = true) := by
    unfold storeProductWoken
    cases hf : w.is_finished_ <;> cases ha : atMost095 w <;> simp
  have hstore : storeProduct w p ≠ none ↔
      (w.current_capacity_ + p.quantity ≤ w.max_capacity_ ∨ atMost095 w = true
        ∨ w.is_finished_ = true) := by
    unfold storeProduct
    by_cases ho : w.current_capacity_ + p.quantity > w.max_capacity_
    · simp only [ho, if_true, hwoken]
      constructor
      · intro h; exact Or.inr h
      · intro h
        rcases h with h | h
        · omega
        · exact h
    · simp only [ho, if_false]
      constructor
      · intro _; left; omega
      · intro _; simp
  refine ⟨hload, hstore, ?_⟩
  rcases atLeast095_or_atMost095 w with h | h
  · exact Or.inl (hload.2 (Or.inl h))
  · exact Or.inr ⟨hstore.2 (Or.inr (Or.inl h)), hwoken.2 (Or.inl h)⟩


/-! ## Order of service -/

theorem loadLoop_full (capacity : Int) (items : List (String × Int)) (st : LoadState)
    (h : capacity ≤ st.loaded_quantity) : loadLoop capacity items st = st := by
  cases items with
  | nil => rfl
  | cons item rest => exact loadLoop_break capacity item rest st h

/-- In the loop over a descending snapshot, a bucket gets a positive amount only if
every strictly larger bucket was taken whole. -/
theorem loadLoop_largest_first (capacity : Int) (items : List (String × Int)) (st : LoadState)
    (hn : (Map.keys items).Nodup) (hz : ∀ k ∈ Map.keys items, Map.get st.truck_load k = 0)
    (hd : Descending items) (x y : String) (qx qy : Int) (hx : (x, qx) ∈ items)
    (hy : (y, qy) ∈ items) (hlt : qy < qx)
    (hpos : 0 < Map.get (loadLoop capacity items st).truck_load y) :
    Map.get (loadLoop capacity items st).truck_load x = qx := by
  induction items generalizing st with
  | nil => simp at hx
  | cons item rest ih =>
    by_cases h : capacity ≤ st.loaded_quantity
    · rw [loadLoop_break _ _ _ _ h, hz y (List.mem_map_of_mem Prod.fst hy)] at hpos
      omega
    · rw [loadLoop_step capacity item rest st (by omega)] at hpos ⊢
      have hz1 := zero_start_step capacity item rest st hn hz
      unfold Descending at hd
      rw [List.pairwise_cons] at hd
      simp only [Map.keys, List.map_cons, List.nodup_cons] at hn
      rcases List.mem_cons.1 hx with hx | hx
      · rcases List.mem_cons.1 hy with hy1 | hy1
        · rw [← hx] at hy1
          have := congrArg Prod.snd hy1
          simp only at this
          omega
        · subst hx
          rw [(loadLoop_frame capacity rest (loadStep capacity (x, qx) st) x hn.1).2.2]
          simp only [loadStep, Map.get_upd_same]
          rcases le_total qx (capacity - st.loaded_quantity) with hle | hle
          · exact min_eq_left hle
          · exfalso
            have hfull : capacity ≤ (loadStep capacity (x, qx) st).loaded_quantity := by
              simp only [loadStep]
              rw [min_eq_right hle]
              omega
            rw [loadLoop_full _ _ _ hfull] at hpos
            have hyk : y ∈ Map.keys rest := List.mem_map_of_mem Prod.fst hy1
            rw [hz1 y hyk] at hpos
            omega
      · rcases List.mem_cons.1 hy with hy1 | hy1
        · have := hd.1 (x, qx) hx
          rw [← hy1] at this
          simp only at this
          omega
        · exact ih (loadStep capacity item st) hn.2 hz1 hd.2 hx hy1 hpos

/-- C18. Largest buckets first, also with ties: for every buffer, every pull capacity
and every two buckets `x`, `y` with `quantity x > quantity y` before the drain, if
`loadTruck` allocates a strictly positive amount to `y` then it allocates the whole
quantity of `x` to `x` and leaves `x` empty (no sign condition on the quantities or
the capacity is needed); hence two buckets of different quantity are never both left
partially drained. -/
theorem largest_buckets_first (w w' : Warehouse) (capacity : Int) (alloc : Map)
    (hkeys : (Map.keys w.storage_).Nodup)
    (hrun : loadTruck w capacity = some (w', alloc)) (x y : String) (qx qy : Int)
    (hx : (x, qx) ∈ w.storage_) (hy : (y, qy) ∈ w.storage_) (hlt : qy < qx)
    (hpos : 0 < Map.get alloc y) :
    Map.get alloc x = qx ∧ Map.get w'.storage_ x = 0 := by
  rcases loadTruck_cases w w' capacity alloc hrun with h | h
  · rw [h.2.2] at hpos
    simp [Map.get] at hpos
  · have hw' : w' = (drain w capacity).1 := congrArg Prod.fst h.2.2
    have ha : alloc = (drain w capacity).2 := congrArg Prod.snd h.2.2
    rw [ha] at hpos
    have hget : Map.get (drain w capacity).2 x = qx :=
      loadLoop_largest_first capacity (sortItems w.storage_) (loadStart w)
        (sortItems_nodup_keys _ hkeys) (loadStart_zero w _) (sortItems_descending _)
        x y qx qy ((mem_sortItems _ _).2 hx) ((mem_sortItems _ _).2 hy) hlt
        (by simpa [drain] using hpos)
    have hd := (drain_delta w capacity hkeys x).1
    rw [Map.get_of_mem _ _ _ hkeys hx, hget] at hd
    rw [hw', ha]
    exact ⟨hget, by rw [hd]; ring⟩

/-- C18 on the example `{A: 100, B: 50, C: 10}` with pull capacity 120: `B` gets a
positive amount, so the larger `A` is taken whole and left empty. -/
theorem largest_buckets_first_witness :
    Map.get (drain greedyExample 120).2 "A" = 100
    ∧ Map.get (drain greedyExample 120).1.storage_ "A" = 0 :=
  largest_buckets_first greedyExample _ 120 _ (by decide) (by rfl) "A" "B" 100 50
    (by decide) (by decide) (by decide) (by decide)


/-! ## Dependence on the iteration order -/

/-- Containers that are permutations of each other hold the same mapping. -/
theorem Map.get_perm (m m' : Map) (hp : m.Perm m') (hn : (Map.keys m).Nodup) (k : String) :
    Map.get m k = Map.get m' k := by
  have hn' : (Map.keys m').Nodup := (hp.map Prod.fst).nodup_iff.1 hn
  by_cases hk : k ∈ Map.keys m
  · have hmem := hp.subset (Map.mem_of_mem_keys m k hk)
    exact (Map.get_of_mem m' k _ hn' hmem).symm
  · have hk' : k ∉ Map.keys m' := fun h => hk ((hp.map Prod.fst).mem_iff.2 h)
    rw [Map.get_eq_zero_of_not_mem m k hk, Map.get_eq_zero_of_not_mem m' k hk']

/-- With pairwise distinct quantities the sorted snapshot does not depend on the
iteration order of the container. -/
theorem sortItems_eq_of_perm (m m' : Map) (hp : m.Perm m')
    (hdist : (m.map Prod.snd).Nodup) : sortItems m = sortItems m' := by
  have hdist' : (m'.map Prod.snd).Nodup := (hp.map Prod.snd).nodup_iff.1 hdist
  have h1 := sortItems_strict m hdist
  have h2 := sortItems_strict m' hdist'
  have hperm : (sortItems m).Perm (sortItems m') :=
    ((sortItems_perm m).trans hp).trans (sortItems_perm m').symm
  haveI : IsAntisymm (String × Int) (fun a b => b.2 < a.2) :=
    ⟨fun a b hab hba => absurd hab (by omega)⟩
  exact List.eq_of_perm_of_sorted hperm h1 h2

/-- What the loop writes into `truck_load` and `loaded_quantity` is determined by the
snapshot and by these two variables at loop entry. -/
theorem loadLoop_truck_indep (capacity : Int) (items : List (String × Int))
    (st st' : LoadState) (ht : st.truck_load = st'.truck_load)
    (hl : st.loaded_quantity = st'.loaded_quantity) :
    (loadLoop capacity items st).truck_load = (loadLoop capacity items st').truck_load := by
  induction items generalizing st st' with
  | nil => simpa [loadLoop] using ht
  | cons item rest ih =>
    by_cases h : capacity ≤ st.loaded_quantity
    · rw [loadLoop_break _ _ _ _ h, loadLoop_break _ _ _ _ (by omega)]
      exact ht
    · rw [loadLoop_step capacity item rest st (by omega),
        loadLoop_step capacity item rest st' (by omega)]
      apply ih
      · simp only [loadStep, ht, hl]
      · simp only [loadStep, hl]

theorem loadTruck_of_ready (w : Warehouse) (capacity : Int) (ht : atLeast095 w = true)
    (hf : w.is_finished_ = false) : loadTruck w capacity = some (drain w capacity) := by
  unfold loadTruck
  rw [ht, hf]
  rfl

theorem tieExampleAB_reach : Reach nonnegBatch 100 (-1) tieExampleAB := by
  have h1 : Reach nonnegBatch 100 (-1) (addProduct (Warehouse.mk0 100 (-1)) (batch "A" 50)) :=
    Reach.store (batch "A" 50) Reach.init (by decide) (by rfl)
  exact Reach.store (batch "B" 50) h1 (by decide) (by rfl)

theorem tieExampleBA_reach : Reach nonnegBatch 100 (-1) tieExampleBA := by
  have h1 : Reach nonnegBatch 100 (-1) (addProduct (Warehouse.mk0 100 (-1)) (batch "B" 50)) :=
    Reach.store (batch "B" 50) Reach.init (by decide) (by rfl)
  exact Reach.store (batch "A" 50) h1 (by decide) (by rfl)

/-- C17 as stated fails: `tieExampleAB` and `tieExampleBA` are reachable, hold the
same contents `{A: 50, B: 50}` and differ only in the iteration order of `storage_`,
yet `loadTruck(50)` returns `{A: 50}` and leaves `{A: 0, B: 50}` on the first, and
returns `{B: 50}` and leaves `{B: 0, A: 50}` on the second. -/
theorem drain_order_dependent_counterexample :
    (Reach nonnegBatch 100 (-1) tieExampleAB ∧ Reach nonnegBatch 100 (-1) tieExampleBA)
    ∧ tieExampleAB.storage_.Perm tieExampleBA.storage_
    ∧ tieExampleBA = { tieExampleAB with storage_ := tieExampleBA.storage_ }
    ∧ (loadTruck tieExampleAB 50).map (fun r => (r.2, r.1.storage_))
        = some ([("A", 50)], [("A", 0), ("B", 50)])
    ∧ (loadTruck tieExampleBA 50).map (fun r => (r.2, r.1.storage_))
        = some ([("B", 50)], [("B", 0), ("A", 50)]) :=
  ⟨⟨tieExampleAB_reach, tieExampleBA_reach⟩, List.Perm.swap _ _ _, rfl, by rfl, by rfl⟩

/-- C17, amended. Drain is deterministic in the contents mapping when the bucket
quantities are pairwise distinct: for every two buffer states that hold the same
bucket-to-quantity mapping with pairwise distinct quantities but enumerate their
buckets in different iteration orders, and every pull capacity, `loadTruck` returns
the same allocation and leaves the same contents mapping. -/
theorem drain_deterministic_distinct (w : Warehouse) (m : Map) (capacity : Int)
    (hperm : w.storage_.Perm m) (hkeys : (Map.keys w.storage_).Nodup)
    (hdist : (w.storage_.map Prod.snd).Nodup) (w' : Warehouse) (alloc : Map)
    (hrun : loadTruck w capacity = some (w', alloc)) :
    ∃ w2', loadTruck { w with storage_ := m } capacity = some (w2', alloc)
      ∧ ∀ b, Map.get w2'.storage_ b = Map.get w'.storage_ b := by
  have hkeys' : (Map.keys m).Nodup := (hperm.map Prod.fst).nodup_iff.1 hkeys
  have hthr : atLeast095 { w with storage_ := m } = atLeast095 w := rfl
  rcases loadTruck_cases w w' capacity alloc hrun with h | h
  · refine ⟨{ w with storage_ := m }, ?_, ?_⟩
    · rw [h.2.2]
      simp [loadTruck, h.1]
    · intro b
      rw [h.2.1]
      exact (Map.get_perm _ _ hperm hkeys b).symm
  · have hw' : w' = (drain w capacity).1 := congrArg Prod.fst h.2.2
    have ha : alloc = (drain w capacity).2 := congrArg Prod.snd h.2.2
    have hsort : sortItems w.storage_ = sortItems m := sortItems_eq_of_perm _ _ hperm hdist
    have halloc : (drain { w with storage_ := m } capacity).2 = (drain w capacity).2 := by
      simp only [drain]
      rw [← hsort]
      exact loadLoop_truck_indep capacity _ _ _ rfl rfl
    refine ⟨(drain { w with storage_ := m } capacity).1, ?_, ?_⟩
    · rw [ha, ← halloc]
      exact loadTruck_of_ready _ capacity (hthr.trans h.2.1) h.1
    · intro b
      have h1 := (drain_delta { w with storage_ := m } capacity hkeys' b).1
      have h2 := (drain_delta w capacity hkeys b).1
      rw [hw', h1, h2, halloc]
      simp only
      rw [Map.get_perm _ _ hperm hkeys b]

/-- C17 amended, on the example `{A: 100, B: 50, C: 10}` enumerated as `C, A, B`:
`loadTruck(120)` returns the same allocation `{A: 100, B: 20}` and leaves `B` at 30
in both enumerations. -/
theorem drain_deterministic_distinct_witness :
    ∃ w2', loadTruck { greedyExample with storage_ := [("C", 10), ("A", 100), ("B", 50)] } 120
        = some (w2', [("A", 100), ("B", 20)])
      ∧ ∀ b, Map.get w2'.storage_ b = Map.get (drain greedyExample 120).1.storage_ b :=
  drain_deterministic_distinct greedyExample [("C", 10), ("A", 100), ("B", 50)] 120
    (by decide) (by decide) (by decide) (drain greedyExample 120).1 [("A", 100), ("B", 20)]
    (by rfl)


/-! ## The averages -/

/-- The rounded quotient is within half a unit of the exact one. -/
theorem roundQuot_near (a t : Nat) (ht : 0 < t) :
    2 * ((roundQuot a t : Int) * t - a) ≤ t ∧ -(t : Int) ≤ 2 * ((roundQuot a t : Int) * t - a) := by
  have hdm := Nat.div_add_mod a t
  have hr := Nat.mod_lt a ht
  have e1 : ((a / t : Nat) : Int) * t = ((t * (a / t) : Nat) : Int) := by push_cast; ring
  have e2 : ((a / t + 1 : Nat) : Int) * t = ((t * (a / t) : Nat) : Int) + t := by
    push_cast; ring
  unfold roundQuot
  simp only []
  split_ifs with hc
  · rw [e2]
    rcases hc with hc | hc <;> omega
  · rw [e1]
    have h1 : ¬ t < 2 * (a % t) := fun h => hc (Or.inl h)
    omega

theorem roundQuot_exact (c t : Nat) (ht : 0 < t) : roundQuot (c * t) t = c := by
  unfold roundQuot
  have h1 : c * t / t = c := Nat.mul_div_cancel c ht
  have h2 : c * t % t = 0 := Nat.mul_mod_left c t
  simp only [h1, h2]
  have h3 : ¬ (t < 2 * 0 ∨ 2 * 0 = t ∧ c % 2 = 1) := by omega
  simp only [h3, if_false]

theorem bitLen_pos (n : Nat) (hn : 0 < n) : 0 < bitLen n := by
  have := lt_two_pow_bitLen n
  by_contra hc
  have h0 : bitLen n = 0 := by omega
  rw [h0] at this
  omega

/-- The scale brings the quotient up to at least `2^52`. -/
theorem quotScale_ge (q t : Nat) (hq : 0 < q) (hq53 : q < 2 ^ 53) (ht : 0 < t) :
    2 ^ 52 * t ≤ q * 2 ^ quotScale q t := by
  have hbq : bitLen q ≤ 53 := bitLenAux_le q q 53 hq53
  have hbt : 0 < bitLen t := bitLen_pos t ht
  have h2q : 2 ^ bitLen q ≤ 2 * q := two_pow_bitLenAux_le q q (le_refl q) hq
  have htl : t < 2 ^ bitLen t := lt_two_pow_bitLen t
  unfold quotScale
  simp only []
  split_ifs with hc
  · have hpow : 2 ^ bitLen q * 2 ^ (52 + bitLen t - bitLen q) = 2 ^ 52 * 2 ^ bitLen t := by
      rw [← pow_add, ← pow_add]
      congr 1
      omega
    have h1 : 2 ^ 52 * t ≤ 2 ^ 52 * 2 ^ bitLen t := Nat.mul_le_mul_left _ (le_of_lt htl)
    have h2 : 2 ^ bitLen q * 2 ^ (52 + bitLen t - bitLen q)
        ≤ 2 * q * 2 ^ (52 + bitLen t - bitLen q) := Nat.mul_le_mul_right _ h2q
    rw [pow_succ]
    calc 2 ^ 52 * t ≤ 2 ^ 52 * 2 ^ bitLen t := h1
      _ = 2 ^ bitLen q * 2 ^ (52 + bitLen t - bitLen q) := hpow.symm
      _ ≤ 2 * q * 2 ^ (52 + bitLen t - bitLen q) := h2
      _ = q * (2 ^ (52 + bitLen t - bitLen q) * 2) := by ring
  · omega

/-- The binary64 quotient of two positive `int`s has a relative error of at most
`2^-53`. -/
theorem divDouble_near (q t : Nat) (ht : 0 < t) (hq53 : q < 2 ^ 53) :
    |(divDouble q t).toRat - (q : ℚ) / t| ≤ (q : ℚ) / t / 2 ^ 53 := by
  have hT : (0 : ℚ) < t := by exact_mod_cast ht
  have hP : (0 : ℚ) < 2 ^ quotScale q t := by positivity
  rcases Nat.eq_zero_or_pos q with h0 | hq
  · subst h0
    have hz : roundQuot 0 t = 0 := by
      have h := roundQuot_exact 0 t ht
      rw [Nat.zero_mul] at h
      exact h
    simp [Double64.toRat, divDouble, hz]
  obtain ⟨hn1, hn2⟩ := roundQuot_near (q * 2 ^ quotScale q t) t ht
  have hM : |(roundQuot (q * 2 ^ quotScale q t) t : ℚ) * t - (q : ℚ) * 2 ^ quotScale q t|
      ≤ (t : ℚ) / 2 := by
    rw [abs_le]
    have c1 : ((2 * ((roundQuot (q * 2 ^ quotScale q t) t : Int) * t
        - ((q * 2 ^ quotScale q t : Nat) : Int)) : Int) : ℚ) ≤ ((t : Int) : ℚ) := by
      exact_mod_cast hn1
    have c2 : ((-(t : Int) : Int) : ℚ) ≤ ((2 * ((roundQuot (q * 2 ^ quotScale q t) t : Int) * t
        - ((q * 2 ^ quotScale q t : Nat) : Int)) : Int) : ℚ) := by
      exact_mod_cast hn2
    push_cast at c1 c2
    constructor <;> linarith
  have hscale : (2 : ℚ) ^ 52 * t ≤ (q : ℚ) * 2 ^ quotScale q t := by
    exact_mod_cast quotScale_ge q t hq hq53 ht
  simp only [Double64.toRat, divDouble, Int.cast_natCast]
  rw [div_sub_div _ _ hP.ne' hT.ne', abs_div, abs_of_pos (mul_pos hP hT), div_div,
    div_le_div_iff₀ (mul_pos hP hT) (by positivity), mul_comm ((2 : ℚ) ^ quotScale q t) (q : ℚ)]
  have h1 := mul_le_mul_of_nonneg_right hM (by positivity : (0 : ℚ) ≤ t * 2 ^ 53)
  have h2 := mul_le_mul_of_nonneg_right hscale hT.le
  have e : (t : ℚ) / 2 * (t * 2 ^ 53) = 2 ^ 52 * t * t := by ring
  rw [e] at h1
  calc _ ≤ (2 : ℚ) ^ 52 * t * t := h1
    _ ≤ (q : ℚ) * 2 ^ quotScale q t * t := h2
    _ = (q : ℚ) * (2 ^ quotScale q t * t) := by ring

/-- The binary64 quotient is exact when the divisor divides the dividend. -/
theorem divDouble_exact (q t : Nat) (ht : 0 < t) (hd : t ∣ q) :
    (divDouble q t).toRat = (q : ℚ) / t := by
  obtain ⟨c, rfl⟩ := hd
  have hT : (t : ℚ) ≠ 0 := by exact_mod_cast ht.ne'
  have hm : roundQuot (t * c * 2 ^ quotScale (t * c) t) t = c * 2 ^ quotScale (t * c) t := by
    have e : t * c * 2 ^ quotScale (t * c) t = c * 2 ^ quotScale (t * c) t * t := by ring
    rw [e]
    exact roundQuot_exact _ t ht
  simp only [Double64.toRat, divDouble, hm]
  push_cast
  field_simp

/-- The average of line 134 for a positive truck count: it is a number, it differs
from the exact quotient by a relative error of at most `2^-53`, and it is the exact
quotient when the truck count divides the quantity. -/
theorem average_accuracy (q t : Int) (ht : 0 < t) (hlo : -2 ^ 53 < q) (hhi : q < 2 ^ 53) :
    ∃ d, average q t = some d
      ∧ |d.toRat - (q : ℚ) / t| ≤ |(q : ℚ) / t| / 2 ^ 53
      ∧ (t ∣ q → d.toRat = (q : ℚ) / t) := by
  have ht0 : ¬ t = 0 := by omega
  have htn : 0 < t.natAbs := by omega
  have hqn : q.natAbs < 2 ^ 53 := by
    norm_num at hlo hhi ⊢
    omega
  have htc : ((t.natAbs : Nat) : ℚ) = (t : ℚ) := by
    rw [← Int.cast_natCast, Int.natAbs_of_nonneg ht.le]
  have hnear := divDouble_near q.natAbs t.natAbs htn hqn
  rw [htc] at hnear
  refine ⟨{ mant := q.sign * t.sign * (divDouble q.natAbs t.natAbs).mant
            scale := (divDouble q.natAbs t.natAbs).scale },
    by simp only [average, ht0, if_false], ?_, ?_⟩
  · simp only [Double64.toRat, Int.sign_eq_one_of_pos ht, mul_one] at hnear ⊢
    rcases lt_trichotomy q 0 with hq | hq | hq
    · have hqc : ((q.natAbs : Nat) : ℚ) = -(q : ℚ) := by
        rw [← Int.cast_natCast, Int.ofNat_natAbs_of_nonpos hq.le, Int.cast_neg]
      rw [hqc] at hnear
      rw [Int.sign_eq_neg_one_of_neg hq]
      have hT : (0 : ℚ) < t := by exact_mod_cast ht
      have hx : (q : ℚ) / t < 0 := div_neg_of_neg_of_pos (by exact_mod_cast hq) hT
      rw [abs_of_neg hx]
      push_cast
      rw [neg_div] at hnear
      have e : (-1 : ℚ) * ((divDouble q.natAbs t.natAbs).mant : ℚ)
            / 2 ^ (divDouble q.natAbs t.natAbs).scale - (q : ℚ) / t
          = -(((divDouble q.natAbs t.natAbs).mant : ℚ)
              / 2 ^ (divDouble q.natAbs t.natAbs).scale - -((q : ℚ) / t)) := by ring
      rw [e, abs_neg]
      exact hnear
    · subst hq
      simp
    · have hqc : ((q.natAbs : Nat) : ℚ) = (q : ℚ) := by
        rw [← Int.cast_natCast, Int.natAbs_of_nonneg hq.le]
      rw [hqc] at hnear
      rw [Int.sign_eq_one_of_pos hq]
      have hT : (0 : ℚ) < t := by exact_mod_cast ht
      have hx : 0 < (q : ℚ) / t := div_pos (by exact_mod_cast hq) hT
      rw [abs_of_pos hx]
      simpa using hnear
  · intro hd
    have hdn : t.natAbs ∣ q.natAbs := Int.natAbs_dvd_natAbs.2 hd
    have hex := divDouble_exact q.natAbs t.natAbs htn hdn
    rw [htc] at hex
    simp only [Double64.toRat, Int.sign_eq_one_of_pos ht, mul_one] at hex ⊢
    rcases lt_trichotomy q 0 with hq | hq | hq
    · have hqc : ((q.natAbs : Nat) : ℚ) = -(q : ℚ) := by
        rw [← Int.cast_natCast, Int.ofNat_natAbs_of_nonpos hq.le, Int.cast_neg]
      rw [hqc] at hex
      rw [Int.sign_eq_neg_one_of_neg hq]
      push_cast
      rw [neg_one_mul, neg_div, hex, neg_div, neg_neg]
    · subst hq
      simp
    · have hqc : ((q.natAbs : Nat) : ℚ) = (q : ℚ) := by
        rw [← Int.cast_natCast, Int.natAbs_of_nonneg hq.le]
      rw [hqc] at hex
      rw [Int.sign_eq_one_of_pos hq]
      simpa using hex


/-- The truck counter is never negative, and it is positive once anything has been
shipped. -/
theorem Reach.trucks_pos {ok : Product → Prop} {C K : Int} (w : Warehouse)
    (hw : Reach ok C K w) :
    0 ≤ w.trucks_loaded_ ∧ (w.cumulative_load_ ≠ [] → 0 < w.trucks_loaded_) := by
  refine Reach.invariant (fun w => 0 ≤ w.trucks_loaded_
    ∧ (w.cumulative_load_ ≠ [] → 0 < w.trucks_loaded_)) ?_ ?_ ?_ w hw
  · exact ⟨le_refl 0, fun h => absurd rfl h⟩
  · intro w p h _
    exact h
  · intro w capacity h _
    have : (drain w capacity).1.trucks_loaded_ = w.trucks_loaded_ + 1 := rfl
    rw [this]
    exact ⟨by omega, fun _ => by omega⟩

theorem thirdsExample_reach : Reach nonnegBatch 100 (-1) thirdsExample := by
  have h1 : Reach nonnegBatch 100 (-1) (addProduct (Warehouse.mk0 100 (-1)) (batch "a" 100)) :=
    Reach.store (batch "a" 100) Reach.init (by decide) (by rfl)
  have h2 : Reach nonnegBatch 100 (-1)
      (drain (addProduct (Warehouse.mk0 100 (-1)) (batch "a" 100)) 5).1 :=
    Reach.load 5 [("a", 5)] h1 (by rfl)
  have h3 : Reach nonnegBatch 100 (-1)
      (drain (drain (addProduct (Warehouse.mk0 100 (-1)) (batch "a" 100)) 5).1 5).1 :=
    Reach.load 5 [("a", 5)] h2 (by rfl)
  have h4 : Reach nonnegBatch 100 (-1)
      (addProduct (drain (drain (addProduct (Warehouse.mk0 100 (-1)) (batch "a" 100)) 5).1 5).1
        (batch "a" 5)) :=
    Reach.store (batch "a" 5) h3 (by decide) (by rfl)
  exact Reach.load 6 [("a", 6)] h4 (by rfl)

theorem averageExample_reach : Reach nonnegBatch 200 3 averageExample := by
  have h1 : Reach nonnegBatch 200 3 (addProduct (Warehouse.mk0 200 3) (batch "A" 200)) :=
    Reach.store (batch "A" 200) Reach.init (by decide) (by rfl)
  have h2 : Reach nonnegBatch 200 3
      (drain (addProduct (Warehouse.mk0 200 3) (batch "A" 200)) 100).1 :=
    Reach.load 100 [("A", 100)] h1 (by rfl)
  have h3 : Reach nonnegBatch 200 3
      (addProduct (drain (addProduct (Warehouse.mk0 200 3) (batch "A" 200)) 100).1
        (batch "A" 100)) :=
    Reach.store (batch "A" 100) h2 (by decide) (by rfl)
  have h4 : Reach nonnegBatch 200 3
      (drain (addProduct (drain (addProduct (Warehouse.mk0 200 3) (batch "A" 200)) 100).1
        (batch "A" 100)) 100).1 :=
    Reach.load 100 [("A", 100)] h3 (by rfl)
  have h5 : Reach nonnegBatch 200 3
      (addProduct (drain (addProduct (drain (addProduct (Warehouse.mk0 200 3)
        (batch "A" 200)) 100).1 (batch "A" 100)) 100).1 (batch "B" 150)) :=
    Reach.store (batch "B" 150) h4 (by decide) (by rfl)
  exact Reach.load 250 [("B", 150), ("A", 100)] h5 (by rfl)

/-- C16 as stated fails in its second half: in the reachable state `thirdsExample`
16 units of `a` have been shipped by 3 trucks, and line 134 computes the binary64
value `6004799503160661 / 2^50`, which is not the rational `16 / 3`. -/
theorem average_inexact_counterexample :
    Reach nonnegBatch 100 (-1) thirdsExample
    ∧ printAverageLoadStats thirdsExample = [("a", some ⟨6004799503160661, 50⟩)]
    ∧ Double64.toRat ⟨6004799503160661, 50⟩ ≠ 16 / 3 := by
  refine ⟨thirdsExample_reach, by decide, ?_⟩
  norm_num [Double64.toRat]

/-- C16, amended. Average statistics are well defined: in every state reachable from a
freshly constructed warehouse, if `cumulative_load_` has at least one bucket then
`trucks_loaded_ > 0`, so the division of line 134 is never by zero; for each bucket
(holding a 32 bit quantity) the reported average is a number, it is
`cumulative_load_[bucket] / trucks_loaded_` up to the binary64 rounding of the
division (relative error at most `2^-53`), and it equals that rational exactly
whenever `trucks_loaded_` divides `cumulative_load_[bucket]`. -/
theorem average_statistics (C K : Int) (w : Warehouse) (hw : Reach anyBatch C K w) :
    (w.cumulative_load_ ≠ [] → 0 < w.trucks_loaded_)
    ∧ ∀ e ∈ w.cumulative_load_, -2 ^ 31 ≤ e.2 → e.2 < 2 ^ 31 →
        ∃ d, (e.1, some d) ∈ printAverageLoadStats w
          ∧ |d.toRat - (e.2 : ℚ) / w.trucks_loaded_|
              ≤ |(e.2 : ℚ) / w.trucks_loaded_| / 2 ^ 53
          ∧ (w.trucks_loaded_ ∣ e.2 → d.toRat = (e.2 : ℚ) / w.trucks_loaded_) := by
  have hpos := (Reach.trucks_pos w hw).2
  refine ⟨hpos, ?_⟩
  intro e he hlo hhi
  have ht : 0 < w.trucks_loaded_ := hpos (List.ne_nil_of_mem he)
  obtain ⟨d, hd, hnear, hex⟩ := average_accuracy e.2 w.trucks_loaded_ ht
    (by norm_num at hlo ⊢; omega) (by norm_num at hhi ⊢; omega)
  refine ⟨d, ?_, hnear, hex⟩
  unfold printAverageLoadStats
  rw [← hd]
  exact List.mem_map_of_mem (fun e => (e.1, average e.2 w.trucks_loaded_)) he

/-- C16 amended, on the example of the specification: with `{A: 300, B: 150}` shipped
by 3 trucks the truck count is positive and the reported averages are exactly
`A = 100` and `B = 50`. -/
theorem average_statistics_witness :
    0 < averageExample.trucks_loaded_
    ∧ (∃ d, ("A", some d) ∈ printAverageLoadStats averageExample ∧ d.toRat = 100)
    ∧ (∃ d, ("B", some d) ∈ printAverageLoadStats averageExample ∧ d.toRat = 50) := by
  have h := average_statistics 200 3 averageExample
    (Reach.mono (fun _ _ => trivial) averageExample averageExample_reach)
  refine ⟨h.1 (by decide), ?_, ?_⟩
  · obtain ⟨d, hm, -, hex⟩ := h.2 ("A", 300) (by decide) (by decide) (by decide)
    refine ⟨d, hm, ?_⟩
    rw [hex (by decide)]
    norm_num [averageExample]
  · obtain ⟨d, hm, -, hex⟩ := h.2 ("B", 150) (by decide) (by decide) (by decide)
    refine ⟨d, hm, ?_⟩
    rw [hex (by decide)]
    norm_num [averageExample]

end FGBY
